import Mathlib

/-!
Verification of the entity-network analytics core of the newspaper_utilities
repository (src/scripts/network_analysis/graph_builder.py, metrics.py,
community.py), as a shallow embedding in Lean.

Conventions of the embedding:
* Python dictionaries become association lists that preserve insertion order
  (`bump` models `defaultdict(int)` incrementing, first-match lookup models
  key lookup, appending models inserting a fresh key).
* A networkx `nx.Graph` becomes the `Graph` structure below: an ordered node
  list, an ordered list of undirected weighted edges (an unordered pair is
  stored once, matched in either orientation), and per-node attributes.
  `Graph.addEdge`, `Graph.removeEdges`, `Graph.removeNodes`, `Graph.degree`
  mirror `add_edge`, `remove_edges_from`, `remove_nodes_from`, `degree`
  (a self-loop contributes 2 to the degree, as in networkx).
* Python string comparison is comparison of Unicode code points; `lexLt` /
  `strLe` implement exactly that on the character lists of Lean strings, and
  `sortPair` models `tuple(sorted([e1, e2]))` for two strings.
* Article records arrive with their date already parsed: `date = none` models
  both a missing `date` field and a string rejected by
  `datetime.strptime(date_str, "%Y-%m-%d")` (the code skips both);
  `Date.valid` states that the triple denotes a real calendar date, which is
  what `strptime` guarantees for any record it lets through.
* Floating point results that no claim inspects numerically (density,
  centrality values, average path length) are represented as rationals.
-/

/-! ## Python string order (code-point lexicographic) -/

def lexLt : List Char → List Char → Bool
  | [], [] => false
  | [], _ :: _ => true
  | _ :: _, [] => false
  | a :: as, b :: bs =>
    if a.toNat < b.toNat then true
    else if b.toNat < a.toNat then false
    else lexLt as bs

def strLe (a b : String) : Bool := !(lexLt b.data a.data)

def strLtB (a b : String) : Bool := lexLt a.data b.data

/-- `tuple(sorted([a, b]))` on two Python strings. -/
def sortPair (a b : String) : String × String := if strLe a b then (a, b) else (b, a)

theorem char_toNat_inj {a b : Char} (h : a.toNat = b.toNat) : a = b :=
  Char.eq_of_val_eq (UInt32.ext h)

theorem lexLt_asymm : ∀ a b, lexLt a b = true → lexLt b a = false
  | [], [] => by simp [lexLt]
  | [], _ :: _ => by simp [lexLt]
  | _ :: _, [] => by simp [lexLt]
  | a :: as, b :: bs => by
    by_cases h1 : a.toNat < b.toNat
    · simp [lexLt, h1, Nat.lt_asymm h1]
    · by_cases h2 : b.toNat < a.toNat
      · simp [lexLt, h1, h2]
      · simp only [lexLt, if_neg h1, if_neg h2]
        exact lexLt_asymm as bs

theorem lexLt_total_eq : ∀ a b, lexLt a b = false → lexLt b a = false → a = b
  | [], [] => fun _ _ => rfl
  | [], _ :: _ => by simp [lexLt]
  | _ :: _, [] => by simp [lexLt]
  | a :: as, b :: bs => by
    by_cases h1 : a.toNat < b.toNat
    · simp [lexLt, h1]
    · by_cases h2 : b.toNat < a.toNat
      · simp [lexLt, h1, h2]
      · simp only [lexLt, if_neg h1, if_neg h2]
        intro ha hb
        have hab : a = b := char_toNat_inj (by omega)
        have : as = bs := lexLt_total_eq as bs ha hb
        simp [hab, this]

theorem strLe_total (a b : String) : strLe a b = true ∨ strLe b a = true := by
  by_cases h1 : lexLt b.data a.data = true
  · right
    simp [strLe, lexLt_asymm _ _ h1]
  · left
    simp [strLe] at h1 ⊢
    exact h1

theorem strLe_antisymm {a b : String} (h1 : strLe a b = true) (h2 : strLe b a = true) :
    a = b := by
  simp [strLe] at h1 h2
  have := lexLt_total_eq _ _ h2 h1
  cases a; cases b; simp_all

theorem sortPair_eq_iff {A B x y : String} (hAB : A ≠ B) :
    sortPair x y = sortPair A B ↔ (x = A ∧ y = B) ∨ (x = B ∧ y = A) := by
  constructor
  · intro h
    unfold sortPair at h
    split at h <;> split at h <;>
      simp only [Prod.mk.injEq] at h <;> tauto
  · intro h
    rcases h with ⟨rfl, rfl⟩ | ⟨rfl, rfl⟩
    · rfl
    · unfold sortPair
      rcases strLe_total x y with ht | ht
      · by_cases hyx : strLe y x = true
        · exact absurd (strLe_antisymm ht hyx).symm hAB
        · simp [ht, hyx]
      · by_cases hxy : strLe x y = true
        · exact absurd (strLe_antisymm hxy ht).symm hAB
        · simp [ht, hxy]

/-! ## Input data model (§3 Entity Directory) -/

/-- A calendar date already parsed from an ISO `YYYY-MM-DD` string. -/
structure Date where
  year : Nat
  month : Nat
  day : Nat
deriving DecidableEq, Repr

def isLeap (y : Nat) : Bool := y % 4 = 0 && (y % 100 ≠ 0 || y % 400 = 0)

def daysInMonth (y m : Nat) : Nat :=
  if m = 2 then (if isLeap y then 29 else 28)
  else if m = 4 ∨ m = 6 ∨ m = 9 ∨ m = 11 then 30
  else 31

/-- The triple denotes a real calendar date (what `strptime` accepts). -/
def Date.valid (d : Date) : Prop :=
  1 ≤ d.year ∧ d.year ≤ 9999 ∧ 1 ≤ d.month ∧ d.month ≤ 12 ∧
    1 ≤ d.day ∧ d.day ≤ daysInMonth d.year d.month

instance (d : Date) : Decidable d.valid := by
  unfold Date.valid; infer_instance

/-- One record of `entities_data['article_entities']`.  Extra entity-type keys
beyond people/places/organizations (the `key not in [...]` loop in
`build_cooccurrence_network`) are kept in `others`, in dict iteration order. -/
structure Article where
  article_id : String
  date : Option Date
  tags : List String
  people : List String
  places : List String
  organizations : List String
  others : List (List String)
deriving DecidableEq, Repr

/-- `all_entities` as accumulated by `build_cooccurrence_network`:
people, then places, then organizations, then every other list-valued key. -/
def Article.allEntities (a : Article) : List String :=
  a.people ++ a.places ++ a.organizations ++ a.others.foldr (· ++ ·) []

/-- `entities_data`: the per-article records plus the per-type mention counts
used by `_add_node_attributes`. -/
structure EntitiesData where
  article_entities : List Article
  people : List (String × Nat)
  places : List (String × Nat)
  organizations : List (String × Nat)
deriving DecidableEq, Repr

/-! ## Graphs (networkx `nx.Graph` as used by this code) -/

structure NodeAttrs where
  etype : String
  mentions : Nat
deriving DecidableEq, Repr

/-- An undirected weighted graph: insertion-ordered nodes, one stored record
per unordered edge (matched in either orientation), per-node attributes. -/
structure Graph where
  nodes : List String
  edges : List (String × String × Nat)
  attrs : List (String × NodeAttrs)
deriving DecidableEq, Repr

def Graph.empty : Graph := ⟨[], [], []⟩

/-- Does the stored edge `e` represent the unordered pair `{u, v}`? -/
def sameEdge (u v : String) (e : String × String × Nat) : Bool :=
  (e.1 == u && e.2.1 == v) || (e.1 == v && e.2.1 == u)

def Graph.hasNode (G : Graph) (u : String) : Bool := G.nodes.contains u

def Graph.addNode (G : Graph) (u : String) : Graph :=
  if G.hasNode u then G else { G with nodes := G.nodes ++ [u] }

/-- `G.add_edge(u, v, weight=w)`: missing endpoints are created, an existing
edge record for the unordered pair has its weight overwritten. -/
def Graph.addEdge (G : Graph) (u v : String) (w : Nat) : Graph :=
  let G1 := (G.addNode u).addNode v
  if G1.edges.any (sameEdge u v) then
    { G1 with edges := G1.edges.map fun e => if sameEdge u v e then (e.1, e.2.1, w) else e }
  else
    { G1 with edges := G1.edges ++ [(u, v, w)] }

def Graph.hasEdge (G : Graph) (u v : String) : Bool := G.edges.any (sameEdge u v)

def Graph.getEdgeWeight (G : Graph) (u v : String) : Option Nat :=
  (G.edges.find? (sameEdge u v)).map (fun e => e.2.2)

/-- networkx degree: each non-loop incident edge counts once, a self-loop
counts twice. -/
def Graph.degree (G : Graph) (u : String) : Nat :=
  G.edges.countP (fun e => e.1 == u) + G.edges.countP (fun e => e.2.1 == u)

def Graph.removeEdges (G : Graph) (rem : List (String × String)) : Graph :=
  { G with edges := G.edges.filter fun e => !(rem.any fun p => sameEdge p.1 p.2 e) }

def Graph.removeNodes (G : Graph) (rem : List String) : Graph :=
  { nodes := G.nodes.filter (fun n => !rem.contains n)
    edges := G.edges.filter (fun e => !rem.contains e.1 && !rem.contains e.2.1)
    attrs := G.attrs.filter (fun p => !rem.contains p.1) }

def Graph.numberOfNodes (G : Graph) : Nat := G.nodes.length

def Graph.numberOfEdges (G : Graph) : Nat := G.edges.length

/-! ## `GraphBuilder.build_cooccurrence_network` -/

/-- `defaultdict(int)` increment `d[k] += 1` on an insertion-ordered dict. -/
def bump : List ((String × String) × Nat) → (String × String) → List ((String × String) × Nat)
  | [], k => [(k, 1)]
  | (k', n) :: rest, k => if k' = k then (k', n + 1) :: rest else (k', n) :: bump rest k

/-- First-match dict lookup with default 0 (missing key reads as 0). -/
def dictGet (d : List ((String × String) × Nat)) (k : String × String) : Nat :=
  match d.find? (fun p => p.1 = k) with
  | some p => p.2
  | none => 0

/-- The nested pair loop `for i, e1 in enumerate(all_entities): for e2 in
all_entities[i+1:]`: each emitted pair is already sorted. -/
def pairsOf : List String → List (String × String)
  | [] => []
  | x :: xs => xs.map (fun y => sortPair x y) ++ pairsOf xs

/-- The accumulated `edge_weights` dict over all articles. -/
def pairWeights (d : EntitiesData) : List ((String × String) × Nat) :=
  d.article_entities.foldl (fun acc a => (pairsOf a.allEntities).foldl bump acc) []

/-- Parameters of co-occurrence construction, after `.get` defaults
(`min_cooccurrences` default 2, `weight_by_frequency` default true,
`time_slices` default `"month"`). -/
structure Params where
  min_cooccurrences : Nat
  weight_by_frequency : Bool
  time_slices : String
deriving DecidableEq, Repr

/-- `_add_node_attributes`: the combined dict is built by `update` in order
people, places, organizations, so a later type overrides an earlier one;
first-match lookup on the reversed-precedence list models that. -/
def addNodeAttributes (G : Graph) (d : EntitiesData) : Graph :=
  let combined : List (String × NodeAttrs) :=
    (d.organizations.map fun p => (p.1, NodeAttrs.mk "ORG" p.2)) ++
    (d.places.map fun p => (p.1, NodeAttrs.mk "PLACE" p.2)) ++
    (d.people.map fun p => (p.1, NodeAttrs.mk "PERSON" p.2))
  { G with attrs := G.nodes.map fun n =>
      match combined.find? (fun p => p.1 = n) with
      | some p => (n, p.2)
      | none => (n, NodeAttrs.mk "UNKNOWN" 0) }

def build_cooccurrence_network (d : EntitiesData) (p : Params) : Graph :=
  let ew := pairWeights d
  let G := ew.foldl
    (fun G entry =>
      if p.min_cooccurrences ≤ entry.2 then
        G.addEdge entry.1.1 entry.1.2 (if p.weight_by_frequency then entry.2 else 1)
      else G)
    Graph.empty
  addNodeAttributes G d

/-! ## Claim-side notions for C1/C2/C8 -/

/-- Number of articles of the input in which both `A` and `B` are mentioned
(the claim's "mentioned together in exactly k articles"). -/
def coArticleCount (d : EntitiesData) (A B : String) : Nat :=
  d.article_entities.countP fun a => a.allEntities.contains A && a.allEntities.contains B

def Graph.hasSelfLoop (G : Graph) : Bool := G.edges.any fun e => e.1 == e.2.1

/-- Two stored edge records for the same unordered node pair. -/
def dupIn : List (String × String × Nat) → Bool
  | [] => false
  | e :: r => r.any (sameEdge e.1 e.2.1) || dupIn r

def Graph.hasDupEdge (G : Graph) : Bool := dupIn G.edges

/-! ## Counting lemmas for the pair loop -/

theorem count_map_eq_count (f : String → String × String) (c : String × String) (b : String)
    (hf : ∀ y, f y = c ↔ y = b) (xs : List String) : (xs.map f).count c = xs.count b := by
  induction xs with
  | nil => rfl
  | cons x xs ih =>
    simp only [List.map_cons, List.count_cons, ih]
    by_cases hx : x = b
    · have hc : f b = c := (hf b).mpr rfl
      have hcx : f x = c := by rw [hx]; exact hc
      simp [hc, hcx, hx]
    · have hc : f x ≠ c := fun h => hx ((hf x).mp h)
      simp [hx, hc, Ne.symm hc, Ne.symm hx]

theorem count_map_zero (f : String → String × String) (c : String × String)
    (hf : ∀ y, f y ≠ c) (xs : List String) : (xs.map f).count c = 0 := by
  induction xs with
  | nil => rfl
  | cons x xs ih => simp [List.count_cons, ih, hf x, Ne.symm (hf x)]

theorem nodup_count (b : String) (xs : List String) (h : xs.Nodup) :
    xs.count b = if b ∈ xs then 1 else 0 := by
  by_cases hb : b ∈ xs
  · simp [hb, List.count_eq_one_of_mem h hb]
  · simp [hb, List.count_eq_zero_of_not_mem hb]

theorem pairsOf_count (A B : String) (hAB : A ≠ B) :
    ∀ l : List String, l.Nodup →
      (pairsOf l).count (sortPair A B) = if A ∈ l ∧ B ∈ l then 1 else 0 := by
  intro l hl
  induction l with
  | nil => simp [pairsOf]
  | cons x xs ih =>
    have hx : x ∉ xs := (List.nodup_cons.mp hl).1
    have hxs : xs.Nodup := (List.nodup_cons.mp hl).2
    have ih := ih hxs
    simp only [pairsOf, List.count_append]
    by_cases hA : x = A
    · have hmap : (xs.map fun y => sortPair x y).count (sortPair A B) = xs.count B := by
        apply count_map_eq_count
        intro y
        rw [sortPair_eq_iff hAB]
        constructor
        · rintro (⟨_, rfl⟩ | ⟨h1, _⟩)
          · rfl
          · rw [hA] at h1; exact absurd h1 hAB
        · rintro rfl
          exact Or.inl ⟨hA, rfl⟩
      have hAxs : A ∉ xs := by rw [← hA]; exact hx
      rw [hmap, ih, nodup_count B xs hxs]
      have hBx : B ≠ x := by rw [hA]; exact Ne.symm hAB
      by_cases hB : B ∈ xs <;>
        simp [List.mem_cons, hA.symm, hAxs, hB, hBx, hx]
    · by_cases hB : x = B
      · have hmap : (xs.map fun y => sortPair x y).count (sortPair A B) = xs.count A := by
          apply count_map_eq_count
          intro y
          rw [sortPair_eq_iff hAB]
          constructor
          · rintro (⟨h1, _⟩ | ⟨_, rfl⟩)
            · exact absurd (h1.symm.trans hB) hAB
            · rfl
          · rintro rfl
            exact Or.inr ⟨hB, rfl⟩
        have hBxs : B ∉ xs := by rw [← hB]; exact hx
        rw [hmap, ih, nodup_count A xs hxs]
        have hAx : A ≠ x := by rw [hB]; exact hAB
        by_cases hAm : A ∈ xs <;>
          simp [List.mem_cons, hB.symm, hBxs, hAm, hAx, hx]
      · have hmap : (xs.map fun y => sortPair x y).count (sortPair A B) = 0 := by
          apply count_map_zero
          intro y h
          rcases (sortPair_eq_iff hAB).mp h with ⟨h1, _⟩ | ⟨h1, _⟩
          · exact hA h1
          · exact hB h1
        rw [hmap, ih]
        simp [List.mem_cons, hA, hB, Ne.symm, fun h : A = x => hA h.symm, fun h : B = x => hB h.symm]

/-! ## Dict lemmas for `edge_weights` -/

def keysOf (d : List ((String × String) × Nat)) : List (String × String) := d.map (·.1)

theorem dictGet_cons (ka : String × String) (va : Nat) (d : List ((String × String) × Nat))
    (k : String × String) :
    dictGet ((ka, va) :: d) k = if ka = k then va else dictGet d k := by
  by_cases h : ka = k <;> simp [dictGet, List.find?_cons, h]

theorem dictGet_bump (d : List ((String × String) × Nat)) (k k' : String × String) :
    dictGet (bump d k) k' = dictGet d k' + (if k' = k then 1 else 0) := by
  induction d with
  | nil =>
    rw [show bump [] k = [(k, 1)] from rfl, dictGet_cons]
    by_cases h : k = k'
    · simp [h, dictGet]
    · have h2 : ¬(k' = k) := fun hh => h hh.symm
      simp [h, h2, dictGet]
  | cons p d ih =>
    obtain ⟨ka, va⟩ := p
    by_cases hk : ka = k
    · have hb : bump ((ka, va) :: d) k = (ka, va + 1) :: d := by
        rw [show bump ((ka, va) :: d) k
            = if ka = k then (ka, va + 1) :: d else (ka, va) :: bump d k from rfl, if_pos hk]
      rw [hb, dictGet_cons, dictGet_cons]
      by_cases h' : ka = k'
      · have h2 : k' = k := by rw [← h', hk]
        simp [h', h2]
      · have h2 : ¬(k' = k) := fun hh => h' (hk.trans hh.symm)
        simp [h', h2]
    · have hb : bump ((ka, va) :: d) k = (ka, va) :: bump d k := by
        rw [show bump ((ka, va) :: d) k
            = if ka = k then (ka, va + 1) :: d else (ka, va) :: bump d k from rfl, if_neg hk]
      rw [hb, dictGet_cons, dictGet_cons]
      by_cases h' : ka = k'
      · have h2 : ¬(k' = k) := fun hh => hk (h'.trans hh)
        simp [h', h2]
      · simp [h', ih]

theorem dictGet_foldl_bump (ps : List (String × String)) (k : String × String) :
    ∀ acc, dictGet (ps.foldl bump acc) k = dictGet acc k + ps.count k := by
  induction ps with
  | nil => simp
  | cons q ps ih =>
    intro acc
    rw [List.foldl_cons, ih, dictGet_bump, List.count_cons]
    by_cases h : k = q
    · simp [h]; omega
    · have h2 : ¬(q = k) := fun hh => h hh.symm
      simp [h, h2]

theorem dictGet_articles (arts : List Article) (k : String × String) :
    ∀ acc, dictGet (arts.foldl (fun acc a => (pairsOf a.allEntities).foldl bump acc) acc) k
      = dictGet acc k + (arts.map fun a => (pairsOf a.allEntities).count k).sum := by
  induction arts with
  | nil => simp
  | cons a arts ih =>
    intro acc
    rw [List.foldl_cons, ih, dictGet_foldl_bump]
    simp [Nat.add_assoc]

theorem sum_counts_aux (A B : String) (hAB : A ≠ B) :
    ∀ arts : List Article, (∀ a ∈ arts, a.allEntities.Nodup) →
      (arts.map fun a => (pairsOf a.allEntities).count (sortPair A B)).sum
        = arts.countP fun a => a.allEntities.contains A && a.allEntities.contains B := by
  intro arts
  induction arts with
  | nil => intro _; rfl
  | cons a arts ih =>
    intro hnd
    have hnda : a.allEntities.Nodup := hnd a (List.mem_cons_self a arts)
    have ih := ih fun a' ha' => hnd a' (List.mem_cons_of_mem a ha')
    rw [List.map_cons, List.sum_cons, ih, List.countP_cons,
      pairsOf_count A B hAB a.allEntities hnda]
    by_cases hA : A ∈ a.allEntities <;> by_cases hB : B ∈ a.allEntities <;>
      simp [hA, hB, List.elem_iff] <;> omega

theorem pairWeights_get_eq (d : EntitiesData) (A B : String) (hAB : A ≠ B)
    (hnd : ∀ a ∈ d.article_entities, a.allEntities.Nodup) :
    dictGet (pairWeights d) (sortPair A B) = coArticleCount d A B := by
  unfold pairWeights coArticleCount
  rw [dictGet_articles, sum_counts_aux A B hAB d.article_entities hnd]
  simp [dictGet]

/-! ## Dict key invariants -/

/-- Boolean equality of unordered string pairs. -/
def upEqb (k k' : String × String) : Bool :=
  (k.1 == k'.1 && k.2 == k'.2) || (k.1 == k'.2 && k.2 == k'.1)

theorem upEqb_iff (k k' : String × String) :
    upEqb k k' = true ↔ (k.1 = k'.1 ∧ k.2 = k'.2) ∨ (k.1 = k'.2 ∧ k.2 = k'.1) := by
  simp [upEqb]

theorem upEqb_symm (k k' : String × String) : upEqb k k' = upEqb k' k := by
  rw [Bool.eq_iff_iff, upEqb_iff, upEqb_iff]
  tauto

theorem sameEdge_eq_upEqb (u v : String) (e : String × String × Nat) :
    sameEdge u v e = upEqb (e.1, e.2.1) (u, v) := rfl

theorem bump_keys (d : List ((String × String) × Nat)) (k : String × String) :
    keysOf (bump d k) = if k ∈ keysOf d then keysOf d else keysOf d ++ [k] := by
  induction d with
  | nil => simp [bump, keysOf]
  | cons p d ih =>
    obtain ⟨ka, va⟩ := p
    by_cases hk : ka = k
    · rw [show bump ((ka, va) :: d) k
        = if ka = k then (ka, va + 1) :: d else (ka, va) :: bump d k from rfl, if_pos hk]
      simp [keysOf, hk]
    · rw [show bump ((ka, va) :: d) k
        = if ka = k then (ka, va + 1) :: d else (ka, va) :: bump d k from rfl, if_neg hk]
      have hck : keysOf ((ka, va) :: bump d k) = ka :: keysOf (bump d k) := rfl
      have hcons : keysOf ((ka, va) :: d) = ka :: keysOf d := rfl
      rw [hck, ih, hcons]
      by_cases hm : k ∈ keysOf d
      · rw [if_pos hm, if_pos (List.mem_cons_of_mem _ hm)]
      · have hnc : ¬(k ∈ ka :: keysOf d) := by
          intro hc
          rcases List.mem_cons.mp hc with h1 | h1
          · exact hk h1.symm
          · exact hm h1
        rw [if_neg hm, if_neg hnc]
        simp

theorem bump_keys_nodup (d : List ((String × String) × Nat)) (k : String × String)
    (h : (keysOf d).Nodup) : (keysOf (bump d k)).Nodup := by
  rw [bump_keys]
  by_cases hm : k ∈ keysOf d
  · simpa [hm]
  · simp [hm, List.nodup_append, h]

theorem bump_key_mem (d : List ((String × String) × Nat)) (k k' : String × String)
    (h : k' ∈ keysOf (bump d k)) : k' ∈ keysOf d ∨ k' = k := by
  rw [bump_keys] at h
  by_cases hm : k ∈ keysOf d
  · rw [if_pos hm] at h; exact Or.inl h
  · rw [if_neg hm] at h
    rcases List.mem_append.mp h with h | h
    · exact Or.inl h
    · simp at h; exact Or.inr h

theorem bump_vals_pos (d : List ((String × String) × Nat)) (k : String × String)
    (h : ∀ kv ∈ d, 1 ≤ kv.2) : ∀ kv ∈ bump d k, 1 ≤ kv.2 := by
  induction d with
  | nil =>
    intro kv hkv
    simp [bump] at hkv
    simp [hkv]
  | cons p d ih =>
    obtain ⟨ka, va⟩ := p
    intro kv hkv
    by_cases hk : ka = k
    · rw [show bump ((ka, va) :: d) k
        = if ka = k then (ka, va + 1) :: d else (ka, va) :: bump d k from rfl, if_pos hk] at hkv
      rcases List.mem_cons.mp hkv with h1 | h1
      · simp [h1]
      · exact h _ (List.mem_cons_of_mem _ h1)
    · rw [show bump ((ka, va) :: d) k
        = if ka = k then (ka, va + 1) :: d else (ka, va) :: bump d k from rfl, if_neg hk] at hkv
      rcases List.mem_cons.mp hkv with h1 | h1
      · exact h _ (h1 ▸ List.mem_cons_self _ _)
      · exact ih (fun kv' hkv' => h kv' (List.mem_cons_of_mem _ hkv')) kv h1

theorem foldl_bump_keys_nodup (ps : List (String × String)) :
    ∀ acc, (keysOf acc).Nodup → (keysOf (ps.foldl bump acc)).Nodup := by
  induction ps with
  | nil => intro acc h; exact h
  | cons q ps ih => intro acc h; exact ih _ (bump_keys_nodup acc q h)

theorem foldl_bump_key_mem (ps : List (String × String)) :
    ∀ acc k', k' ∈ keysOf (ps.foldl bump acc) → k' ∈ keysOf acc ∨ k' ∈ ps := by
  induction ps with
  | nil => intro acc k' h; exact Or.inl h
  | cons q ps ih =>
    intro acc k' h
    rcases ih _ _ h with h1 | h1
    · rcases bump_key_mem acc q k' h1 with h2 | h2
      · exact Or.inl h2
      · exact Or.inr (h2 ▸ List.mem_cons_self _ _)
    · exact Or.inr (List.mem_cons_of_mem _ h1)

theorem foldl_bump_vals_pos (ps : List (String × String)) :
    ∀ acc, (∀ kv ∈ acc, 1 ≤ kv.2) → ∀ kv ∈ ps.foldl bump acc, 1 ≤ kv.2 := by
  induction ps with
  | nil => intro acc h; exact h
  | cons q ps ih => intro acc h; exact ih _ (bump_vals_pos acc q h)

theorem pairWeights_keys_nodup (d : EntitiesData) : (keysOf (pairWeights d)).Nodup := by
  unfold pairWeights
  have : ∀ arts : List Article, ∀ acc : List ((String × String) × Nat), (keysOf acc).Nodup →
      (keysOf (arts.foldl (fun acc a => (pairsOf a.allEntities).foldl bump acc) acc)).Nodup := by
    intro arts
    induction arts with
    | nil => intro acc h; exact h
    | cons a arts ih => intro acc h; exact ih _ (foldl_bump_keys_nodup _ _ h)
  exact this d.article_entities [] (by simp [keysOf])

theorem pairWeights_key_mem (d : EntitiesData) (k : String × String)
    (h : k ∈ keysOf (pairWeights d)) :
    ∃ a ∈ d.article_entities, k ∈ pairsOf a.allEntities := by
  unfold pairWeights at h
  have main : ∀ arts : List Article, ∀ acc : List ((String × String) × Nat),
      k ∈ keysOf (arts.foldl (fun acc a => (pairsOf a.allEntities).foldl bump acc) acc) →
      k ∈ keysOf acc ∨ ∃ a ∈ arts, k ∈ pairsOf a.allEntities := by
    intro arts
    induction arts with
    | nil => intro acc h; exact Or.inl h
    | cons a arts ih =>
      intro acc h
      rcases ih _ h with h1 | ⟨a', ha', hk⟩
      · rcases foldl_bump_key_mem _ _ _ h1 with h2 | h2
        · exact Or.inl h2
        · exact Or.inr ⟨a, List.mem_cons_self _ _, h2⟩
      · exact Or.inr ⟨a', List.mem_cons_of_mem _ ha', hk⟩
  rcases main d.article_entities [] h with h1 | h1
  · simp [keysOf] at h1
  · exact h1

theorem pairWeights_vals_pos (d : EntitiesData) : ∀ kv ∈ pairWeights d, 1 ≤ kv.2 := by
  unfold pairWeights
  have : ∀ arts : List Article, ∀ acc : List ((String × String) × Nat),
      (∀ kv ∈ acc, 1 ≤ kv.2) →
      ∀ kv ∈ arts.foldl (fun acc a => (pairsOf a.allEntities).foldl bump acc) acc, 1 ≤ kv.2 := by
    intro arts
    induction arts with
    | nil => intro acc h; exact h
    | cons a arts ih => intro acc h; exact ih _ (foldl_bump_vals_pos _ _ h)
  exact this d.article_entities [] (by simp)

/-! ## Normalization of dict keys and the build fold -/

theorem sortPair_norm (a b : String) : strLe (sortPair a b).1 (sortPair a b).2 = true := by
  unfold sortPair
  rcases strLe_total a b with h | h
  · simp [h]
  · by_cases h2 : strLe a b = true
    · simp [h2]
    · simp [h2, h]

theorem sortPair_ne (a b : String) (hab : a ≠ b) : (sortPair a b).1 ≠ (sortPair a b).2 := by
  unfold sortPair
  by_cases h : strLe a b = true
  · simpa [h] using hab
  · simpa [h] using Ne.symm hab

theorem pairsOf_mem_sortPair (l : List String) (q : String × String) (h : q ∈ pairsOf l) :
    ∃ x y, q = sortPair x y ∧ x ∈ l ∧ y ∈ l ∧ (l.Nodup → x ≠ y) := by
  induction l with
  | nil => simp [pairsOf] at h
  | cons x xs ih =>
    simp only [pairsOf, List.mem_append, List.mem_map] at h
    rcases h with ⟨y, hy, rfl⟩ | h
    · refine ⟨x, y, rfl, List.mem_cons_self _ _, List.mem_cons_of_mem _ hy, ?_⟩
      intro hnd hxy
      exact (List.nodup_cons.mp hnd).1 (hxy ▸ hy)
    · rcases ih h with ⟨a, b, rfl, ha, hb, hne⟩
      exact ⟨a, b, rfl, List.mem_cons_of_mem _ ha, List.mem_cons_of_mem _ hb,
        fun hnd => hne (List.nodup_cons.mp hnd).2⟩

theorem pairWeights_norm (d : EntitiesData) :
    ∀ kv ∈ pairWeights d, strLe kv.1.1 kv.1.2 = true := by
  intro kv hkv
  have hkey : kv.1 ∈ keysOf (pairWeights d) := List.mem_map_of_mem _ hkv
  rcases pairWeights_key_mem d kv.1 hkey with ⟨a, _, hk⟩
  rcases pairsOf_mem_sortPair _ _ hk with ⟨x, y, heq, _, _, _⟩
  rw [heq]
  exact sortPair_norm x y

theorem pairWeights_ne (d : EntitiesData)
    (hnd : ∀ a ∈ d.article_entities, a.allEntities.Nodup) :
    ∀ kv ∈ pairWeights d, kv.1.1 ≠ kv.1.2 := by
  intro kv hkv
  have hkey : kv.1 ∈ keysOf (pairWeights d) := List.mem_map_of_mem _ hkv
  rcases pairWeights_key_mem d kv.1 hkey with ⟨a, ha, hk⟩
  rcases pairsOf_mem_sortPair _ _ hk with ⟨x, y, heq, _, _, hne⟩
  rw [heq]
  exact sortPair_ne x y (hne (hnd a ha))

theorem pairWeights_pairwise (d : EntitiesData) :
    (pairWeights d).Pairwise fun kv kv' => upEqb kv'.1 kv.1 = false := by
  have hnodup := pairWeights_keys_nodup d
  unfold keysOf at hnodup
  have hp : (pairWeights d).Pairwise fun kv kv' => kv.1 ≠ kv'.1 :=
    List.pairwise_map.mp hnodup
  refine hp.imp_of_mem ?_
  intro kv kv' hkv hkv' hne
  rw [Bool.eq_false_iff]
  intro hup
  rcases (upEqb_iff _ _).mp hup with ⟨h1, h2⟩ | ⟨h1, h2⟩
  · exact hne (Prod.ext h1.symm h2.symm)
  · have n1 := pairWeights_norm d kv hkv
    have n2 := pairWeights_norm d kv' hkv'
    rw [h1, h2] at n2
    have heq : kv.1.1 = kv.1.2 := strLe_antisymm n1 n2
    apply hne
    have : kv'.1 = (kv.1.2, kv.1.1) := Prod.ext h1 h2
    rw [this]
    exact Prod.ext heq heq.symm

/-- The edge record that a surviving `edge_weights` entry contributes. -/
def buildEdge (p : Params) (kv : (String × String) × Nat) : Option (String × String × Nat) :=
  if p.min_cooccurrences ≤ kv.2 then
    some (kv.1.1, kv.1.2, if p.weight_by_frequency then kv.2 else 1)
  else none

theorem addNode_edges (G : Graph) (u : String) : (G.addNode u).edges = G.edges := by
  unfold Graph.addNode
  split <;> rfl

theorem addEdge_edges_of_fresh (G : Graph) (u v : String) (w : Nat)
    (h : ∀ e ∈ G.edges, sameEdge u v e = false) :
    (G.addEdge u v w).edges = G.edges ++ [(u, v, w)] := by
  unfold Graph.addEdge
  simp only [addNode_edges]
  have hany : (G.edges.any (sameEdge u v)) = false := by
    rw [List.any_eq_false]
    intro e he
    simp [h e he]
  rw [if_neg (by simp [hany])]

theorem foldl_addEdge_edges (p : Params) :
    ∀ (entries : List ((String × String) × Nat)) (G0 : Graph),
      (∀ kv ∈ entries, ∀ e ∈ G0.edges, upEqb (e.1, e.2.1) kv.1 = false) →
      entries.Pairwise (fun kv kv' => upEqb kv'.1 kv.1 = false) →
      (entries.foldl (fun G kv =>
          if p.min_cooccurrences ≤ kv.2 then
            G.addEdge kv.1.1 kv.1.2 (if p.weight_by_frequency then kv.2 else 1)
          else G) G0).edges
        = G0.edges ++ entries.filterMap (buildEdge p) := by
  intro entries
  induction entries with
  | nil => intro G0 _ _; simp
  | cons kv rest ih =>
    intro G0 hfresh hpw
    rw [List.foldl_cons]
    by_cases hmin : p.min_cooccurrences ≤ kv.2
    · rw [if_pos hmin]
      set w := if p.weight_by_frequency then kv.2 else 1 with hw
      have hedges : (G0.addEdge kv.1.1 kv.1.2 w).edges = G0.edges ++ [(kv.1.1, kv.1.2, w)] := by
        apply addEdge_edges_of_fresh
        intro e he
        rw [sameEdge_eq_upEqb]
        exact hfresh kv (List.mem_cons_self _ _) e he
      have hfresh' : ∀ kv' ∈ rest, ∀ e ∈ (G0.addEdge kv.1.1 kv.1.2 w).edges,
          upEqb (e.1, e.2.1) kv'.1 = false := by
        intro kv' hkv' e he
        rw [hedges] at he
        rcases List.mem_append.mp he with he | he
        · exact hfresh kv' (List.mem_cons_of_mem _ hkv') e he
        · simp only [List.mem_singleton] at he
          subst he
          rw [upEqb_symm]
          exact (List.pairwise_cons.mp hpw).1 kv' hkv'
      rw [ih _ hfresh' (List.pairwise_cons.mp hpw).2, hedges]
      have hbe : buildEdge p kv = some (kv.1.1, kv.1.2, w) := by
        rw [buildEdge, if_pos hmin]
      rw [List.filterMap_cons, hbe]
      simp
    · rw [if_neg hmin]
      have hbe : buildEdge p kv = none := by
        rw [buildEdge, if_neg hmin]
      rw [ih _ (fun kv' hkv' => hfresh kv' (List.mem_cons_of_mem _ hkv'))
        (List.pairwise_cons.mp hpw).2, List.filterMap_cons, hbe]

theorem addNodeAttributes_edges (G : Graph) (d : EntitiesData) :
    (addNodeAttributes G d).edges = G.edges := rfl

theorem addNodeAttributes_nodes (G : Graph) (d : EntitiesData) :
    (addNodeAttributes G d).nodes = G.nodes := rfl

/-- The edges of a freshly built co-occurrence graph are exactly the
`edge_weights` entries that met the threshold, in dict order. -/
theorem build_cooccurrence_edges (d : EntitiesData) (p : Params) :
    (build_cooccurrence_network d p).edges = (pairWeights d).filterMap (buildEdge p) := by
  unfold build_cooccurrence_network
  rw [addNodeAttributes_edges, foldl_addEdge_edges p (pairWeights d) Graph.empty
    (by intro kv _ e he; simp [Graph.empty] at he) (pairWeights_pairwise d)]
  rfl

/-! ## Edge lookup characterization -/

theorem dictGet_mem (d : List ((String × String) × Nat)) (k : String × String)
    (h : dictGet d k ≠ 0) : (k, dictGet d k) ∈ d := by
  cases hf : d.find? (fun p => p.1 = k) with
  | none =>
    exfalso
    apply h
    unfold dictGet
    rw [hf]
  | some p =>
    have hval : dictGet d k = p.2 := by unfold dictGet; rw [hf]
    have hmem := List.mem_of_find?_eq_some hf
    have hkey := List.find?_some hf
    simp at hkey
    rw [hval, ← hkey]
    simpa using hmem

theorem mem_dictGet_of_nodup (d : List ((String × String) × Nat))
    (hnd : (keysOf d).Nodup) (kv : (String × String) × Nat) (h : kv ∈ d) :
    dictGet d kv.1 = kv.2 := by
  induction d with
  | nil => simp at h
  | cons p d ih =>
    obtain ⟨ka, va⟩ := p
    rcases List.mem_cons.mp h with h1 | h1
    · rw [h1, dictGet_cons]
      simp
    · have hka : ka ≠ kv.1 := by
        intro hc
        have : kv.1 ∈ keysOf d := List.mem_map_of_mem _ h1
        have : ka ∈ keysOf d := hc ▸ this
        exact (List.nodup_cons.mp hnd).1 this
      rw [dictGet_cons, if_neg hka]
      exact ih (List.nodup_cons.mp hnd).2 h1

theorem keys_nodup_entry_unique (d : List ((String × String) × Nat))
    (hnd : (keysOf d).Nodup) (kv kv' : (String × String) × Nat)
    (h : kv ∈ d) (h' : kv' ∈ d) (hk : kv.1 = kv'.1) : kv = kv' := by
  have e1 := mem_dictGet_of_nodup d hnd kv h
  have e2 := mem_dictGet_of_nodup d hnd kv' h'
  rw [hk] at e1
  exact Prod.ext hk (e1.symm.trans e2)

theorem norm_upEqb_sortPair (k : String × String) (A B : String)
    (hnorm : strLe k.1 k.2 = true) (hAB : A ≠ B) :
    upEqb k (A, B) = true ↔ k = sortPair A B := by
  constructor
  · intro h
    rcases (upEqb_iff _ _).mp h with ⟨h1, h2⟩ | ⟨h1, h2⟩
    · have hk : k = (A, B) := Prod.ext h1 h2
      rw [hk]
      unfold sortPair
      by_cases hle : strLe A B = true
      · rw [if_pos hle]
      · rw [hk] at hnorm
        exact absurd hnorm hle
    · have hk : k = (B, A) := Prod.ext h1 h2
      rw [hk]
      unfold sortPair
      by_cases hle : strLe A B = true
      · rw [hk] at hnorm
        exact absurd (strLe_antisymm hle hnorm) hAB
      · rw [if_neg hle]
  · intro h
    rw [h, Bool.eq_iff_iff, upEqb_iff]
    unfold sortPair
    by_cases hle : strLe A B = true
    · simp [hle]
    · simp [hle]

theorem upEqb_sortPair_self (A B : String) : upEqb (sortPair A B) (A, B) = true := by
  rw [upEqb_iff]
  unfold sortPair
  by_cases hle : strLe A B = true
  · simp [hle]
  · simp [hle]

theorem find?_eq_some_of_unique {α : Type} (p : α → Bool) (l : List α) (x : α)
    (hx : x ∈ l) (hpx : p x = true) (huniq : ∀ y ∈ l, p y = true → y = x) :
    l.find? p = some x := by
  induction l with
  | nil => simp at hx
  | cons a l ih =>
    by_cases hpa : p a = true
    · rw [List.find?_cons_of_pos _ hpa]
      rw [huniq a (List.mem_cons_self _ _) hpa]
    · rw [List.find?_cons_of_neg _ hpa]
      rcases List.mem_cons.mp hx with h1 | h1
      · rw [← h1] at hpa; exact absurd hpx hpa
      · exact ih h1 fun y hy hpy => huniq y (List.mem_cons_of_mem _ hy) hpy

theorem getEdgeWeight_build (d : EntitiesData) (p : Params) (A B : String) (hAB : A ≠ B) :
    (build_cooccurrence_network d p).getEdgeWeight A B =
      (if 1 ≤ dictGet (pairWeights d) (sortPair A B) ∧
          p.min_cooccurrences ≤ dictGet (pairWeights d) (sortPair A B) then
        some (if p.weight_by_frequency then dictGet (pairWeights d) (sortPair A B) else 1)
      else none) := by
  unfold Graph.getEdgeWeight
  rw [build_cooccurrence_edges]
  set k0 := dictGet (pairWeights d) (sortPair A B) with hk0
  by_cases hcond : 1 ≤ k0 ∧ p.min_cooccurrences ≤ k0
  · rw [if_pos hcond]
    have hmem : (sortPair A B, k0) ∈ pairWeights d := by
      rw [hk0]
      exact dictGet_mem _ _ (by omega)
    have hbe : buildEdge p (sortPair A B, k0)
        = some ((sortPair A B).1, (sortPair A B).2, if p.weight_by_frequency then k0 else 1) := by
      rw [buildEdge, if_pos hcond.2]
    set edge := ((sortPair A B).1, (sortPair A B).2, if p.weight_by_frequency then k0 else 1)
      with hedge
    have hin : edge ∈ (pairWeights d).filterMap (buildEdge p) :=
      List.mem_filterMap.mpr ⟨(sortPair A B, k0), hmem, hbe⟩
    have hsame : sameEdge A B edge = true := by
      rw [sameEdge_eq_upEqb]
      exact upEqb_sortPair_self A B
    have huniq : ∀ y ∈ (pairWeights d).filterMap (buildEdge p),
        sameEdge A B y = true → y = edge := by
      intro y hy hsy
      rcases List.mem_filterMap.mp hy with ⟨kv, hkv, hbkv⟩
      have hw : p.min_cooccurrences ≤ kv.2 := by
        by_contra hc
        rw [buildEdge, if_neg hc] at hbkv
        exact Option.noConfusion hbkv
      rw [buildEdge, if_pos hw] at hbkv
      have hy1 : y = (kv.1.1, kv.1.2, if p.weight_by_frequency then kv.2 else 1) :=
        (Option.some.injEq _ _ ▸ hbkv).symm
      have hkey : kv.1 = sortPair A B := by
        have hnorm := pairWeights_norm d kv hkv
        rw [← norm_upEqb_sortPair kv.1 A B hnorm hAB]
        rw [hy1] at hsy
        rw [sameEdge_eq_upEqb] at hsy
        exact hsy
      have : kv = (sortPair A B, k0) :=
        keys_nodup_entry_unique _ (pairWeights_keys_nodup d) _ _ hkv hmem hkey
      rw [hy1, this]
    rw [find?_eq_some_of_unique _ _ edge hin hsame huniq]
    rfl
  · rw [if_neg hcond]
    have hnone : List.find? (sameEdge A B) ((pairWeights d).filterMap (buildEdge p)) = none := by
      rw [List.find?_eq_none]
      intro y hy
      rcases List.mem_filterMap.mp hy with ⟨kv, hkv, hbkv⟩
      have hw : p.min_cooccurrences ≤ kv.2 := by
        by_contra hc
        rw [buildEdge, if_neg hc] at hbkv
        exact Option.noConfusion hbkv
      rw [buildEdge, if_pos hw] at hbkv
      have hy1 : y = (kv.1.1, kv.1.2, if p.weight_by_frequency then kv.2 else 1) :=
        (Option.some.injEq _ _ ▸ hbkv).symm
      intro hsy
      have hkey : kv.1 = sortPair A B := by
        have hnorm := pairWeights_norm d kv hkv
        rw [← norm_upEqb_sortPair kv.1 A B hnorm hAB]
        rw [hy1, sameEdge_eq_upEqb] at hsy
        exact hsy
      have hval : k0 = kv.2 := by
        rw [hk0, ← hkey]
        exact mem_dictGet_of_nodup _ (pairWeights_keys_nodup d) kv hkv
      have hpos := pairWeights_vals_pos d kv hkv
      exact hcond ⟨by omega, by omega⟩
    rw [hnone]
    rfl

/-! ## Simplicity of built graphs (C2) and endpoint invariant (C8) -/

theorem filterMap_buildEdge_noDup (p : Params) :
    ∀ entries : List ((String × String) × Nat),
      entries.Pairwise (fun kv kv' => upEqb kv'.1 kv.1 = false) →
      dupIn (entries.filterMap (buildEdge p)) = false := by
  intro entries
  induction entries with
  | nil => intro _; rfl
  | cons kv rest ih =>
    intro hpw
    rw [List.filterMap_cons]
    cases hbe : buildEdge p kv with
    | none => exact ih (List.pairwise_cons.mp hpw).2
    | some e =>
      have he : e = (kv.1.1, kv.1.2, if p.weight_by_frequency then kv.2 else 1) := by
        by_cases hmin : p.min_cooccurrences ≤ kv.2
        · rw [buildEdge, if_pos hmin] at hbe
          exact (Option.some.injEq _ _ ▸ hbe).symm
        · rw [buildEdge, if_neg hmin] at hbe
          exact Option.noConfusion hbe
      rw [show dupIn (e :: rest.filterMap (buildEdge p))
          = ((rest.filterMap (buildEdge p)).any (sameEdge e.1 e.2.1)
            || dupIn (rest.filterMap (buildEdge p))) from rfl]
      have hany : (rest.filterMap (buildEdge p)).any (sameEdge e.1 e.2.1) = false := by
        rw [List.any_eq_false]
        intro y hy
        rcases List.mem_filterMap.mp hy with ⟨kv', hkv', hbkv'⟩
        have hw : p.min_cooccurrences ≤ kv'.2 := by
          by_contra hc
          rw [buildEdge, if_neg hc] at hbkv'
          exact Option.noConfusion hbkv'
        rw [buildEdge, if_pos hw] at hbkv'
        have hy1 : y = (kv'.1.1, kv'.1.2, if p.weight_by_frequency then kv'.2 else 1) :=
          (Option.some.injEq _ _ ▸ hbkv').symm
        rw [hy1, he]
        rw [show sameEdge (kv.1.1, kv.1.2,
            if p.weight_by_frequency then kv.2 else 1).1
            (kv.1.1, kv.1.2, if p.weight_by_frequency then kv.2 else 1).2.1
            (kv'.1.1, kv'.1.2, if p.weight_by_frequency then kv'.2 else 1)
          = upEqb (kv'.1.1, kv'.1.2) (kv.1.1, kv.1.2) from rfl]
        have := (List.pairwise_cons.mp hpw).1 kv' hkv'
        simpa using this
      rw [hany, ih (List.pairwise_cons.mp hpw).2]
      rfl

theorem graph_selfLoop_of_edges (G : Graph)
    (h : ∀ e ∈ G.edges, (e.1 == e.2.1) = false) : G.hasSelfLoop = false := by
  unfold Graph.hasSelfLoop
  rw [List.any_eq_false]
  intro e he
  simp [h e he]

theorem addNode_nodes_mem (G : Graph) (u n : String)
    (h : n ∈ (G.addNode u).nodes) : n ∈ G.nodes ∨ n = u := by
  unfold Graph.addNode at h
  split at h
  · exact Or.inl h
  · rcases List.mem_append.mp h with h1 | h1
    · exact Or.inl h1
    · simp at h1; exact Or.inr h1

theorem addEdge_endpoint_invariant (G : Graph) (u v : String) (w : Nat)
    (hG : ∀ n ∈ G.nodes, ∃ e ∈ G.edges, n = e.1 ∨ n = e.2.1) :
    ∀ n ∈ (G.addEdge u v w).nodes, ∃ e ∈ (G.addEdge u v w).edges, n = e.1 ∨ n = e.2.1 := by
  intro n hn
  unfold Graph.addEdge at hn ⊢
  simp only [addNode_edges] at hn ⊢
  have hnodes : n ∈ ((G.addNode u).addNode v).nodes → n ∈ G.nodes ∨ n = u ∨ n = v := by
    intro h
    rcases addNode_nodes_mem _ _ _ h with h1 | h1
    · rcases addNode_nodes_mem _ _ _ h1 with h2 | h2
      · exact Or.inl h2
      · exact Or.inr (Or.inl h2)
    · exact Or.inr (Or.inr h1)
  by_cases hany : G.edges.any (sameEdge u v) = true
  · rw [if_pos hany] at hn ⊢
    simp only at hn
    rcases hnodes hn with h1 | h1 | h1
    · rcases hG n h1 with ⟨e, he, hor⟩
      refine ⟨if sameEdge u v e then (e.1, e.2.1, w) else e, List.mem_map_of_mem _ he, ?_⟩
      by_cases hse : sameEdge u v e = true
      · simpa [hse] using hor
      · simpa [hse] using hor
    · rcases List.any_eq_true.mp hany with ⟨e, he, hse⟩
      refine ⟨if sameEdge u v e then (e.1, e.2.1, w) else e, List.mem_map_of_mem _ he, ?_⟩
      rw [if_pos hse]
      rcases Bool.or_eq_true_iff.mp hse with hc | hc
      · have h2 : e.1 = u := by simpa using (Bool.and_eq_true_iff.mp hc).1
        exact Or.inl (h1.trans h2.symm)
      · have h2 : e.2.1 = u := by simpa using (Bool.and_eq_true_iff.mp hc).2
        exact Or.inr (h1.trans h2.symm)
    · rcases List.any_eq_true.mp hany with ⟨e, he, hse⟩
      refine ⟨if sameEdge u v e then (e.1, e.2.1, w) else e, List.mem_map_of_mem _ he, ?_⟩
      rw [if_pos hse]
      rcases Bool.or_eq_true_iff.mp hse with hc | hc
      · have h2 : e.2.1 = v := by simpa using (Bool.and_eq_true_iff.mp hc).2
        exact Or.inr (h1.trans h2.symm)
      · have h2 : e.1 = v := by simpa using (Bool.and_eq_true_iff.mp hc).1
        exact Or.inl (h1.trans h2.symm)
  · rw [if_neg hany] at hn ⊢
    simp only at hn
    rcases hnodes hn with h1 | h1 | h1
    · rcases hG n h1 with ⟨e, he, hor⟩
      exact ⟨e, List.mem_append_left _ he, hor⟩
    · exact ⟨(u, v, w), List.mem_append_right _ (List.mem_singleton_self _), Or.inl h1⟩
    · exact ⟨(u, v, w), List.mem_append_right _ (List.mem_singleton_self _), Or.inr h1⟩

theorem build_fold_endpoints (p : Params) :
    ∀ (entries : List ((String × String) × Nat)) (G0 : Graph),
      (∀ n ∈ G0.nodes, ∃ e ∈ G0.edges, n = e.1 ∨ n = e.2.1) →
      ∀ n ∈ (entries.foldl (fun G kv =>
          if p.min_cooccurrences ≤ kv.2 then
            G.addEdge kv.1.1 kv.1.2 (if p.weight_by_frequency then kv.2 else 1)
          else G) G0).nodes,
        ∃ e ∈ (entries.foldl (fun G kv =>
          if p.min_cooccurrences ≤ kv.2 then
            G.addEdge kv.1.1 kv.1.2 (if p.weight_by_frequency then kv.2 else 1)
          else G) G0).edges, n = e.1 ∨ n = e.2.1 := by
  intro entries
  induction entries with
  | nil => intro G0 h; exact h
  | cons kv rest ih =>
    intro G0 h
    rw [List.foldl_cons]
    by_cases hmin : p.min_cooccurrences ≤ kv.2
    · rw [if_pos hmin]
      exact ih _ (addEdge_endpoint_invariant _ _ _ _ h)
    · rw [if_neg hmin]
      exact ih _ h

theorem degree_pos_of_endpoint (G : Graph) (u : String)
    (h : ∃ e ∈ G.edges, u = e.1 ∨ u = e.2.1) : 1 ≤ G.degree u := by
  unfold Graph.degree
  rcases h with ⟨e, he, hor | hor⟩
  · have : 0 < G.edges.countP (fun e => e.1 == u) :=
      List.countP_pos_iff.mpr ⟨e, he, by simp [hor]⟩
    omega
  · have : 0 < G.edges.countP (fun e => e.2.1 == u) :=
      List.countP_pos_iff.mpr ⟨e, he, by simp [hor]⟩
    omega

/-! ## Claim C1 -/

/-- C1 (counterexample): the claim fails as stated.  With one article whose
combined entity list is `["A", "A", "B"]` (the same name twice, e.g. tagged
both as a person and a place), the pair (A,B) is mentioned together in
exactly k = 1 article, and `min_cooccurrences = 2 > 1`, so the claim demands
no edge; the code counts list positions, not articles, accumulates 2 for
(A,B), and emits an edge of weight 2. -/
theorem cooccurrence_edge_weight_counterexample :
    coArticleCount
        (EntitiesData.mk [Article.mk "a1" none [] ["A", "A", "B"] [] [] []] [] [] []) "A" "B" = 1
      ∧ (1 : Nat) < 2
      ∧ (build_cooccurrence_network
          (EntitiesData.mk [Article.mk "a1" none [] ["A", "A", "B"] [] [] []] [] [] [])
          (Params.mk 2 true "month")).getEdgeWeight "A" "B" = some 2 := by
  exact ⟨by decide, by decide, by decide⟩

/-- C1 (amended): provided every article's combined entity list has no
duplicate names and `min_cooccurrences ≥ 1` (its configuration contract),
for distinct entities A ≠ B mentioned together in exactly
k = `coArticleCount` articles, `build_cooccurrence_network` emits the edge
(A,B) with weight k when `weight_by_frequency` and weight 1 otherwise iff
k ≥ `min_cooccurrences`, and no edge when k < `min_cooccurrences`. -/
theorem cooccurrence_edge_weight_eq_article_count (d : EntitiesData) (p : Params)
    (A B : String) (hAB : A ≠ B) (hmin : 1 ≤ p.min_cooccurrences)
    (hnd : ∀ a ∈ d.article_entities, a.allEntities.Nodup) :
    (build_cooccurrence_network d p).getEdgeWeight A B =
      (if p.min_cooccurrences ≤ coArticleCount d A B then
        some (if p.weight_by_frequency then coArticleCount d A B else 1)
      else none) := by
  rw [getEdgeWeight_build d p A B hAB, pairWeights_get_eq d A B hAB hnd]
  by_cases h : p.min_cooccurrences ≤ coArticleCount d A B
  · rw [if_pos h, if_pos ⟨by omega, h⟩]
  · rw [if_neg h, if_neg (by omega)]

/-- C1 (witness): the amended theorem applied to the spec's own worked
scenario (three articles {A,B}, {A,B,C}, {B,C}, threshold 2). -/
theorem cooccurrence_edge_weight_witness :
    (build_cooccurrence_network
        (EntitiesData.mk [Article.mk "a1" none [] ["A", "B"] [] [] [],
          Article.mk "a2" none [] ["A", "B", "C"] [] [] [],
          Article.mk "a3" none [] ["B", "C"] [] [] []] [] [] [])
        (Params.mk 2 true "month")).getEdgeWeight "A" "B" = some 2 := by
  have h := cooccurrence_edge_weight_eq_article_count
    (EntitiesData.mk [Article.mk "a1" none [] ["A", "B"] [] [] [],
      Article.mk "a2" none [] ["A", "B", "C"] [] [] [],
      Article.mk "a3" none [] ["B", "C"] [] [] []] [] [] [])
    (Params.mk 2 true "month") "A" "B" (by decide) (by decide) (by decide)
  rw [h]
  decide

/-! ## Claim C2 -/

/-- C2 (counterexample): with one article whose combined entity list repeats
the name X, the built graph contains the self-loop (X,X), so the claim's
"no self-loop even when the same entity name occurs more than once within a
single article" is false on the code. -/
theorem cooccurrence_selfloop_counterexample :
    (build_cooccurrence_network
        (EntitiesData.mk [Article.mk "a1" none [] ["X", "X"] [] [] []] [] [] [])
        (Params.mk 1 true "month")).hasSelfLoop = true := by
  decide

/-- C2 (amended): a built co-occurrence graph never contains two edge records
for the same unordered pair (unconditionally), and it contains no self-loop
provided every article's combined entity list has no duplicate names. -/
theorem cooccurrence_graph_simple (d : EntitiesData) (p : Params) :
    (build_cooccurrence_network d p).hasDupEdge = false ∧
      ((∀ a ∈ d.article_entities, a.allEntities.Nodup) →
        (build_cooccurrence_network d p).hasSelfLoop = false) := by
  constructor
  · unfold Graph.hasDupEdge
    rw [build_cooccurrence_edges]
    exact filterMap_buildEdge_noDup p (pairWeights d) (pairWeights_pairwise d)
  · intro hnd
    apply graph_selfLoop_of_edges
    intro e he
    rw [build_cooccurrence_edges] at he
    rcases List.mem_filterMap.mp he with ⟨kv, hkv, hbkv⟩
    have hw : p.min_cooccurrences ≤ kv.2 := by
      by_contra hc
      rw [buildEdge, if_neg hc] at hbkv
      exact Option.noConfusion hbkv
    rw [buildEdge, if_pos hw] at hbkv
    have he1 : e = (kv.1.1, kv.1.2, if p.weight_by_frequency then kv.2 else 1) :=
      (Option.some.injEq _ _ ▸ hbkv).symm
    rw [he1]
    simpa using pairWeights_ne d hnd kv hkv

/-- C2 (witness): the amended theorem applied to a concrete duplicate-free
input. -/
theorem cooccurrence_graph_simple_witness :
    (build_cooccurrence_network
        (EntitiesData.mk [Article.mk "a1" none [] ["A", "B"] [] [] [],
          Article.mk "a2" none [] ["A", "B"] [] [] []] [] [] [])
        (Params.mk 2 true "month")).hasDupEdge = false ∧
      (build_cooccurrence_network
        (EntitiesData.mk [Article.mk "a1" none [] ["A", "B"] [] [] [],
          Article.mk "a2" none [] ["A", "B"] [] [] []] [] [] [])
        (Params.mk 2 true "month")).hasSelfLoop = false := by
  have h := cooccurrence_graph_simple
    (EntitiesData.mk [Article.mk "a1" none [] ["A", "B"] [] [] [],
      Article.mk "a2" none [] ["A", "B"] [] [] []] [] [] [])
    (Params.mk 2 true "month")
  exact ⟨h.1, h.2 (by decide)⟩

/-! ## Claim C8 -/

/-- C8: every node of a freshly built co-occurrence graph has degree ≥ 1
(nodes are created only by `add_edge` on a retained edge, and
`_add_node_attributes` adds no nodes), so isolated nodes never materialize. -/
theorem cooccurrence_no_isolated_nodes (d : EntitiesData) (p : Params) :
    ∀ u ∈ (build_cooccurrence_network d p).nodes,
      1 ≤ (build_cooccurrence_network d p).degree u := by
  intro u hu
  have hnodes : (build_cooccurrence_network d p).nodes
      = ((pairWeights d).foldl (fun G kv =>
          if p.min_cooccurrences ≤ kv.2 then
            G.addEdge kv.1.1 kv.1.2 (if p.weight_by_frequency then kv.2 else 1)
          else G) Graph.empty).nodes := rfl
  have hedges : (build_cooccurrence_network d p).edges
      = ((pairWeights d).foldl (fun G kv =>
          if p.min_cooccurrences ≤ kv.2 then
            G.addEdge kv.1.1 kv.1.2 (if p.weight_by_frequency then kv.2 else 1)
          else G) Graph.empty).edges := rfl
  apply degree_pos_of_endpoint
  rw [hedges]
  exact build_fold_endpoints p (pairWeights d) Graph.empty
    (by intro n hn; simp [Graph.empty] at hn) u (hnodes ▸ hu)

/-- C8 (witness): applied to a concrete input whose graph has node "A". -/
theorem cooccurrence_no_isolated_nodes_witness :
    1 ≤ (build_cooccurrence_network
        (EntitiesData.mk [Article.mk "a1" none [] ["A", "B"] [] [] [],
          Article.mk "a2" none [] ["A", "B"] [] [] []] [] [] [])
        (Params.mk 2 true "month")).degree "A" := by
  apply cooccurrence_no_isolated_nodes
  decide

/-! ## Connectivity: `nx.connected_components` / `nx.is_connected` semantics

`componentsOf` computes the connectivity partition of a graph by merging
blocks across edges; `partInv_componentsOf` (soundness: members of a block
are connected) and `conn_sameBlock` (completeness: connected nodes share a
block) below establish that it is exactly the partition networkx computes.
Block order and member order inside a block are internal bookkeeping that
no claim depends on. -/

def blockOf (p : List (List String)) (u : String) : List String :=
  match p.find? (fun b => b.contains u) with
  | some b => b
  | none => []

def mergeE (p : List (List String)) (e : String × String × Nat) : List (List String) :=
  if blockOf p e.1 = [] ∨ blockOf p e.2.1 = [] ∨ blockOf p e.1 = blockOf p e.2.1 then p
  else (blockOf p e.1 ++ blockOf p e.2.1)
    :: p.filter (fun b => !(b == blockOf p e.1) && !(b == blockOf p e.2.1))

def componentsOf (G : Graph) : List (List String) :=
  G.edges.foldl mergeE (G.nodes.map fun n => [n])

/-- `max(nx.connected_components(G), key=len)`: first block of maximal size. -/
def largestBlock : List (List String) → List String
  | [] => []
  | b :: bs => bs.foldl (fun best c => if best.length < c.length then c else best) b

/-- `nx.is_connected`, which raises `NetworkXPointlessConcept` on the null
graph. -/
def isConnectedE (G : Graph) : Except String Bool :=
  if G.nodes.isEmpty then
    Except.error "Connectivity is undefined for the null graph."
  else Except.ok ((componentsOf G).length == 1)

/-- Well-formedness every networkx graph enjoys: no duplicate node, and every
edge endpoint registered as a node. -/
def Graph.WF (G : Graph) : Prop :=
  G.nodes.Nodup ∧ ∀ e ∈ G.edges, e.1 ∈ G.nodes ∧ e.2.1 ∈ G.nodes

instance (G : Graph) : Decidable G.WF := by
  unfold Graph.WF; infer_instance

/-! ## `GraphBuilder.filter_network` -/

/-- `filtering_config` after `.get` defaults: `min_degree` default 1,
`min_edge_weight` default 0, `top_n_nodes` default None,
`giant_component_only` default False. -/
structure FilteringConfig where
  min_degree : Nat
  min_edge_weight : Nat
  top_n_nodes : Option Nat
  giant_component_only : Bool
deriving DecidableEq, Repr

/-- `if min_edge_weight > 0: remove_edges_from(edges with weight < it)`. -/
def edgeFilterStage (w : Nat) (G : Graph) : Graph :=
  if 0 < w then
    G.removeEdges ((G.edges.filter fun e => e.2.2 < w).map fun e => (e.1, e.2.1))
  else G

/-- `if min_degree > 1: remove_nodes_from(nodes with degree < it)`. -/
def degreeFilterStage (dmin : Nat) (G : Graph) : Graph :=
  if 1 < dmin then
    G.removeNodes (G.nodes.filter fun n => G.degree n < dmin)
  else G

/-- Stable descending insertion by the numeric component: extensionally the
stable `sorted(..., key=lambda x: x[1], reverse=True)` of Python. -/
def insDesc (x : String × Nat) : List (String × Nat) → List (String × Nat)
  | [] => [x]
  | y :: ys => if y.2 ≤ x.2 then x :: y :: ys else y :: insDesc x ys

def sortDesc (l : List (String × Nat)) : List (String × Nat) := l.foldr insDesc []

/-- `if top_n_nodes:` — note Python falsiness: `None` and `0` both skip. -/
def topNStage : Option Nat → Graph → Graph
  | none, G => G
  | some n, G =>
    if n = 0 then G
    else
      G.removeNodes (G.nodes.filter fun u =>
        !((((sortDesc (G.nodes.map fun u => (u, G.degree u))).take n).map (·.1)).contains u))

/-- `if giant_component_only and nx.is_connected(filtered_G) is False: ...`. -/
def giantStage (flag : Bool) (G : Graph) : Except String Graph :=
  if flag then
    match isConnectedE G with
    | Except.error e => Except.error e
    | Except.ok c =>
      if c then Except.ok G
      else
        Except.ok (G.removeNodes
          (G.nodes.filter fun u => !((largestBlock (componentsOf G)).contains u)))
  else Except.ok G

/-- `GraphBuilder.filter_network` applied to the copy `filtered_G`; the stage
order is the source's: edge-weight filter, degree filter, top-N filter,
giant-component filter. -/
def filter_network (G : Graph) (cfg : FilteringConfig) : Except String Graph :=
  giantStage cfg.giant_component_only
    (topNStage cfg.top_n_nodes
      (degreeFilterStage cfg.min_degree
        (edgeFilterStage cfg.min_edge_weight G)))

/-! ## Claims C10 and C3: counterexamples and easy stage lemmas -/

deriving instance DecidableEq for Except

theorem removeEdges_nodes (G : Graph) (rem : List (String × String)) :
    (G.removeEdges rem).nodes = G.nodes := rfl

theorem edgeFilterStage_nodes (w : Nat) (G : Graph) :
    (edgeFilterStage w G).nodes = G.nodes := by
  unfold edgeFilterStage
  split <;> rfl

/-- C10 (counterexample): with `min_degree = 1` the degree filter indeed never
runs, but a node isolated by the edge-weight filter can still be removed by a
later stage.  First scenario: `giant_component_only` discards the isolated
"d" (and "e"); second scenario: `top_n_nodes = 3` discards the isolated "d". -/
theorem filter_isolated_node_removed_counterexample :
    (edgeFilterStage 2
        (Graph.mk ["a", "b", "c", "d", "e"]
          [("a", "b", 2), ("b", "c", 2), ("a", "c", 2), ("d", "e", 1)] [])).degree "d" = 0
    ∧ filter_network
        (Graph.mk ["a", "b", "c", "d", "e"]
          [("a", "b", 2), ("b", "c", 2), ("a", "c", 2), ("d", "e", 1)] [])
        (FilteringConfig.mk 1 2 none true)
      = Except.ok (Graph.mk ["a", "b", "c"] [("a", "b", 2), ("b", "c", 2), ("a", "c", 2)] [])
    ∧ "d" ∉ (Graph.mk ["a", "b", "c"] [("a", "b", 2), ("b", "c", 2), ("a", "c", 2)] []).nodes
    ∧ filter_network
        (Graph.mk ["a", "b", "c", "d"]
          [("a", "b", 2), ("b", "c", 2), ("a", "c", 2), ("a", "d", 1)] [])
        (FilteringConfig.mk 1 2 (some 3) false)
      = Except.ok (Graph.mk ["a", "b", "c"] [("a", "b", 2), ("b", "c", 2), ("a", "c", 2)] []) := by
  exact ⟨by decide, by decide, by decide, by decide⟩

/-- C10 (amended): when `min_degree ≤ 1` (1 is the default) and the later
stages are also inactive (`top_n_nodes` unset or 0, `giant_component_only`
false), `filter_network` performs no node removal at all: it returns exactly
the edge-weight-filtered graph, whose node set is the input's, so a node
isolated by edge removal remains. -/
theorem filter_no_degree_removal (G : Graph) (cfg : FilteringConfig)
    (h1 : cfg.min_degree ≤ 1) (h2 : cfg.top_n_nodes = none ∨ cfg.top_n_nodes = some 0)
    (h3 : cfg.giant_component_only = false) :
    filter_network G cfg = Except.ok (edgeFilterStage cfg.min_edge_weight G) ∧
      (edgeFilterStage cfg.min_edge_weight G).nodes = G.nodes := by
  obtain ⟨md, w, tn, gc⟩ := cfg
  simp only at h1 h2 h3
  subst h3
  have hdeg : degreeFilterStage md (edgeFilterStage w G) = edgeFilterStage w G := by
    unfold degreeFilterStage
    rw [if_neg (by omega)]
  have htop : topNStage tn (edgeFilterStage w G) = edgeFilterStage w G := by
    rcases h2 with h2 | h2 <;> subst h2
    · rfl
    · unfold topNStage
      simp
  refine ⟨?_, edgeFilterStage_nodes w G⟩
  unfold filter_network giantStage
  simp only [hdeg, htop]
  rfl

/-- C10 (witness): the amended theorem at a concrete input where the
edge-weight filter isolates "d" and "d" survives. -/
theorem filter_no_degree_removal_witness :
    filter_network (Graph.mk ["a", "b", "d"] [("a", "b", 2), ("a", "d", 1)] [])
        (FilteringConfig.mk 1 2 none false)
      = Except.ok (edgeFilterStage 2 (Graph.mk ["a", "b", "d"] [("a", "b", 2), ("a", "d", 1)] []))
    ∧ (edgeFilterStage 2 (Graph.mk ["a", "b", "d"] [("a", "b", 2), ("a", "d", 1)] [])).nodes
      = ["a", "b", "d"] :=
  filter_no_degree_removal (Graph.mk ["a", "b", "d"] [("a", "b", 2), ("a", "d", 1)] [])
    (FilteringConfig.mk 1 2 none false) (by decide) (Or.inl rfl) rfl

/-- C3 (counterexample): `filter_network` is not idempotent.  On the path
a-b-c-d with `min_degree = 2`, the first pass removes the degree-1 endpoints
a and d in a single sweep, leaving b-c whose degrees have now dropped to 1;
a second pass with the same configuration removes b and c as well. -/
theorem filter_idempotence_counterexample :
    filter_network
        (Graph.mk ["a", "b", "c", "d"] [("a", "b", 1), ("b", "c", 1), ("c", "d", 1)] [])
        (FilteringConfig.mk 2 0 none false)
      = Except.ok (Graph.mk ["b", "c"] [("b", "c", 1)] [])
    ∧ filter_network (Graph.mk ["b", "c"] [("b", "c", 1)] [])
        (FilteringConfig.mk 2 0 none false)
      = Except.ok (Graph.mk [] [] [])
    ∧ Graph.mk [] [] [] ≠ Graph.mk ["b", "c"] [("b", "c", 1)] [] := by
  exact ⟨by decide, by decide, by decide⟩

/-! ## Soundness and completeness of `componentsOf` -/

/-- Adjacency through some stored edge. -/
def AdjP (G : Graph) (u v : String) : Prop :=
  ∃ e ∈ G.edges, (e.1 = u ∧ e.2.1 = v) ∨ (e.1 = v ∧ e.2.1 = u)

/-- Graph-theoretic connectivity (reflexive-transitive closure of adjacency). -/
def Conn (G : Graph) : String → String → Prop := Relation.ReflTransGen (AdjP G)

def Disj (b1 b2 : List String) : Prop := ∀ x, x ∈ b1 → x ∈ b2 → False

def SameBlock (p : List (List String)) (x y : String) : Prop :=
  ∃ b ∈ p, x ∈ b ∧ y ∈ b

theorem AdjP_symm {G : Graph} {u v : String} (h : AdjP G u v) : AdjP G v u := by
  rcases h with ⟨e, he, h1 | h1⟩
  · exact ⟨e, he, Or.inr h1⟩
  · exact ⟨e, he, Or.inl h1⟩

theorem Conn_symm {G : Graph} {u v : String} (h : Conn G u v) : Conn G v u :=
  (Relation.ReflTransGen.symmetric fun _ _ hh => AdjP_symm hh) h

theorem Conn_trans {G : Graph} {u v w : String} (h1 : Conn G u v) (h2 : Conn G v w) :
    Conn G u w := Relation.ReflTransGen.trans h1 h2

theorem Disj_symm : ∀ {b1 b2 : List String}, Disj b1 b2 → Disj b2 b1 :=
  fun h x h2 h1 => h x h1 h2

/-- Invariant preserved by the block-merging fold. -/
structure PartInv (G : Graph) (p : List (List String)) : Prop where
  blocks_nonempty : ∀ b ∈ p, b ≠ []
  pdisj : p.Pairwise Disj
  cover : ∀ x ∈ G.nodes, ∃ b ∈ p, x ∈ b
  member_nodes : ∀ b ∈ p, ∀ x ∈ b, x ∈ G.nodes
  sound : ∀ b ∈ p, ∀ x ∈ b, ∀ y ∈ b, Conn G x y

theorem mem_block_unique {G : Graph} {p : List (List String)} (hinv : PartInv G p)
    {b1 b2 : List String} (h1 : b1 ∈ p) (h2 : b2 ∈ p) {x : String}
    (hx1 : x ∈ b1) (hx2 : x ∈ b2) : b1 = b2 := by
  by_cases heq : b1 = b2
  · exact heq
  · exact absurd (List.Pairwise.forall (fun _ _ => Disj_symm) hinv.pdisj h1 h2 heq x hx1 hx2)
      (fun h => h)

theorem blockOf_spec {p : List (List String)} {u : String} (h : ∃ b ∈ p, u ∈ b) :
    blockOf p u ∈ p ∧ u ∈ blockOf p u := by
  unfold blockOf
  cases hf : p.find? (fun b => b.contains u) with
  | none =>
    exfalso
    rcases h with ⟨b, hb, hub⟩
    have := List.find?_eq_none.mp hf b hb
    simp at this
    exact this hub
  | some b =>
    constructor
    · exact List.mem_of_find?_eq_some hf
    · have := List.find?_some hf
      simpa using this

theorem blockOf_spec_of_ne {p : List (List String)} {u : String}
    (h : blockOf p u ≠ []) : blockOf p u ∈ p ∧ u ∈ blockOf p u := by
  apply blockOf_spec
  by_contra hc
  push_neg at hc
  apply h
  unfold blockOf
  cases hf : p.find? (fun b => b.contains u) with
  | none => rfl
  | some b =>
    exfalso
    have hmem := List.mem_of_find?_eq_some hf
    have hcont := List.find?_some hf
    simp at hcont
    exact hc b hmem hcont

theorem mergeE_partInv {G : Graph} {p : List (List String)} {e : String × String × Nat}
    (he : e ∈ G.edges) (hinv : PartInv G p) : PartInv G (mergeE p e) := by
  unfold mergeE
  split
  · exact hinv
  · rename_i hcond
    push_neg at hcond
    obtain ⟨hbu, hbv, hbuv⟩ := hcond
    obtain ⟨hbu_mem, hu_mem⟩ := blockOf_spec_of_ne hbu
    obtain ⟨hbv_mem, hv_mem⟩ := blockOf_spec_of_ne hbv
    have hfilter_mem : ∀ b, b ∈ p.filter
        (fun b => !(b == blockOf p e.1) && !(b == blockOf p e.2.1)) →
        b ∈ p ∧ b ≠ blockOf p e.1 ∧ b ≠ blockOf p e.2.1 := by
      intro b hb
      have hmf := List.mem_filter.mp hb
      have h2 : ¬(b = blockOf p e.1) ∧ ¬(b = blockOf p e.2.1) := by simpa using hmf.2
      exact ⟨hmf.1, h2.1, h2.2⟩
    refine ⟨?_, ?_, ?_, ?_, ?_⟩
    · intro b hb
      rcases List.mem_cons.mp hb with rfl | hb
      · intro hc
        rw [List.append_eq_nil] at hc
        exact hbu hc.1
      · exact hinv.blocks_nonempty b (hfilter_mem b hb).1
    · rw [List.pairwise_cons]
      constructor
      · intro b hb x hxm hxb
        obtain ⟨hbp, hne1, hne2⟩ := hfilter_mem b hb
        rcases List.mem_append.mp hxm with hx | hx
        · exact hne1 (mem_block_unique hinv hbp hbu_mem hxb hx)
        · exact hne2 (mem_block_unique hinv hbp hbv_mem hxb hx)
      · exact hinv.pdisj.sublist (List.filter_sublist p)
    · intro x hx
      rcases hinv.cover x hx with ⟨b, hb, hxb⟩
      by_cases h1 : b = blockOf p e.1
      · exact ⟨_, List.mem_cons_self _ _, List.mem_append_left _ (h1 ▸ hxb)⟩
      · by_cases h2 : b = blockOf p e.2.1
        · exact ⟨_, List.mem_cons_self _ _, List.mem_append_right _ (h2 ▸ hxb)⟩
        · refine ⟨b, List.mem_cons_of_mem _ (List.mem_filter.mpr ⟨hb, ?_⟩), hxb⟩
          simp [h1, h2]
    · intro b hb x hxb
      rcases List.mem_cons.mp hb with rfl | hb
      · rcases List.mem_append.mp hxb with hx | hx
        · exact hinv.member_nodes _ hbu_mem x hx
        · exact hinv.member_nodes _ hbv_mem x hx
      · exact hinv.member_nodes _ (hfilter_mem b hb).1 x hxb
    · intro b hb x hxb y hyb
      have hadj : Conn G e.1 e.2.1 :=
        Relation.ReflTransGen.single ⟨e, he, Or.inl ⟨rfl, rfl⟩⟩
      rcases List.mem_cons.mp hb with rfl | hb
      · rcases List.mem_append.mp hxb with hx | hx <;> rcases List.mem_append.mp hyb with hy | hy
        · exact hinv.sound _ hbu_mem x hx y hy
        · exact Conn_trans (hinv.sound _ hbu_mem x hx e.1 hu_mem)
            (Conn_trans hadj (hinv.sound _ hbv_mem e.2.1 hv_mem y hy))
        · exact Conn_trans (hinv.sound _ hbv_mem x hx e.2.1 hv_mem)
            (Conn_trans (Conn_symm hadj) (hinv.sound _ hbu_mem e.1 hu_mem y hy))
        · exact hinv.sound _ hbv_mem x hx y hy
      · exact hinv.sound _ (hfilter_mem b hb).1 x hxb y hyb

theorem sameBlock_symm {p : List (List String)} {x y : String} (h : SameBlock p x y) :
    SameBlock p y x := by
  rcases h with ⟨b, hb, hx, hy⟩
  exact ⟨b, hb, hy, hx⟩

theorem mergeE_sameBlock_mono {p : List (List String)} {e : String × String × Nat}
    {x y : String} (h : SameBlock p x y) : SameBlock (mergeE p e) x y := by
  rcases h with ⟨b, hb, hx, hy⟩
  unfold mergeE
  split
  · exact ⟨b, hb, hx, hy⟩
  · by_cases h1 : b = blockOf p e.1
    · exact ⟨_, List.mem_cons_self _ _,
        List.mem_append_left _ (h1 ▸ hx), List.mem_append_left _ (h1 ▸ hy)⟩
    · by_cases h2 : b = blockOf p e.2.1
      · exact ⟨_, List.mem_cons_self _ _,
          List.mem_append_right _ (h2 ▸ hx), List.mem_append_right _ (h2 ▸ hy)⟩
      · exact ⟨b, List.mem_cons_of_mem _ (List.mem_filter.mpr ⟨hb, by simp [h1, h2]⟩), hx, hy⟩

theorem foldl_mergeE_sameBlock_mono (es : List (String × String × Nat)) :
    ∀ p x y, SameBlock p x y → SameBlock (es.foldl mergeE p) x y := by
  induction es with
  | nil => intro p x y h; exact h
  | cons f rest ih => intro p x y h; exact ih _ _ _ (mergeE_sameBlock_mono h)

theorem mergeE_endpoints {p : List (List String)} {e : String × String × Nat}
    (hu : ∃ b ∈ p, e.1 ∈ b) (hv : ∃ b ∈ p, e.2.1 ∈ b) :
    SameBlock (mergeE p e) e.1 e.2.1 := by
  obtain ⟨hbu_mem, hu_mem⟩ := blockOf_spec hu
  obtain ⟨hbv_mem, hv_mem⟩ := blockOf_spec hv
  unfold mergeE
  split
  · rename_i hcond
    rcases hcond with hc | hc | hc
    · exact absurd hc (by intro hh; rw [hh] at hu_mem; simp at hu_mem)
    · exact absurd hc (by intro hh; rw [hh] at hv_mem; simp at hv_mem)
    · exact ⟨blockOf p e.1, hbu_mem, hu_mem, hc ▸ hv_mem⟩
  · exact ⟨_, List.mem_cons_self _ _,
      List.mem_append_left _ hu_mem, List.mem_append_right _ hv_mem⟩

theorem foldl_mergeE_partInv {G : Graph} (es : List (String × String × Nat)) :
    ∀ p, (∀ e ∈ es, e ∈ G.edges) → PartInv G p → PartInv G (es.foldl mergeE p) := by
  induction es with
  | nil => intro p _ h; exact h
  | cons f rest ih =>
    intro p hes h
    exact ih _ (fun e he => hes e (List.mem_cons_of_mem _ he))
      (mergeE_partInv (hes f (List.mem_cons_self _ _)) h)

theorem partInv_start (G : Graph) (hWF : G.WF) : PartInv G (G.nodes.map fun n => [n]) := by
  refine ⟨?_, ?_, ?_, ?_, ?_⟩
  · intro b hb
    rcases List.mem_map.mp hb with ⟨n, _, rfl⟩
    simp
  · apply List.pairwise_map.mpr
    apply List.Pairwise.imp ?_ hWF.1
    intro a b hab x hx1 hx2
    simp at hx1 hx2
    exact hab (hx1 ▸ hx2 ▸ rfl)
  · intro x hx
    exact ⟨[x], List.mem_map_of_mem _ hx, List.mem_singleton_self x⟩
  · intro b hb x hxb
    rcases List.mem_map.mp hb with ⟨n, hn, rfl⟩
    simp at hxb
    exact hxb ▸ hn
  · intro b hb x hxb y hyb
    rcases List.mem_map.mp hb with ⟨n, _, rfl⟩
    simp at hxb hyb
    rw [hxb, hyb]
    exact Relation.ReflTransGen.refl

theorem partInv_componentsOf (G : Graph) (hWF : G.WF) : PartInv G (componentsOf G) :=
  foldl_mergeE_partInv G.edges _ (fun _ he => he) (partInv_start G hWF)

theorem foldl_mergeE_edge_sameBlock {G : Graph} (hWF : G.WF)
    (es : List (String × String × Nat)) :
    ∀ p, PartInv G p → (∀ e' ∈ es, e' ∈ G.edges) →
      ∀ e ∈ es, SameBlock (es.foldl mergeE p) e.1 e.2.1 := by
  induction es with
  | nil => intro p _ _ e he; simp at he
  | cons f rest ih =>
    intro p hinv hes e he
    rw [List.foldl_cons]
    rcases List.mem_cons.mp he with rfl | he
    · apply foldl_mergeE_sameBlock_mono
      apply mergeE_endpoints
      · exact hinv.cover _ (hWF.2 e (hes e (List.mem_cons_self _ _))).1
      · exact hinv.cover _ (hWF.2 e (hes e (List.mem_cons_self _ _))).2
    · exact ih _ (mergeE_partInv (hes f (List.mem_cons_self _ _)) hinv)
        (fun e' he' => hes e' (List.mem_cons_of_mem _ he')) e he

theorem edge_sameBlock {G : Graph} (hWF : G.WF) {e : String × String × Nat}
    (he : e ∈ G.edges) : SameBlock (componentsOf G) e.1 e.2.1 :=
  foldl_mergeE_edge_sameBlock hWF G.edges _ (partInv_start G hWF) (fun _ h => h) e he

theorem sameBlock_trans {G : Graph} {p : List (List String)} (hinv : PartInv G p)
    {x y z : String} (h1 : SameBlock p x y) (h2 : SameBlock p y z) : SameBlock p x z := by
  rcases h1 with ⟨b1, hb1, hx, hy1⟩
  rcases h2 with ⟨b2, hb2, hy2, hz⟩
  have := mem_block_unique hinv hb1 hb2 hy1 hy2
  exact ⟨b1, hb1, hx, this ▸ hz⟩

theorem conn_sameBlock {G : Graph} (hWF : G.WF) {x y : String}
    (hx : x ∈ G.nodes) (h : Conn G x y) : SameBlock (componentsOf G) x y := by
  have hinv := partInv_componentsOf G hWF
  induction h with
  | refl =>
    rcases hinv.cover x hx with ⟨b, hb, hxb⟩
    exact ⟨b, hb, hxb, hxb⟩
  | tail hxy hadj ih =>
    rename_i y' z'
    rcases hadj with ⟨e, he, hor⟩
    have hsb := edge_sameBlock hWF he
    rcases hor with ⟨h1, h2⟩ | ⟨h1, h2⟩
    · exact sameBlock_trans hinv ih (h1 ▸ h2 ▸ hsb)
    · exact sameBlock_trans hinv ih (sameBlock_symm (h1 ▸ h2 ▸ hsb))

theorem block_closed {G : Graph} (hWF : G.WF) {C : List String}
    (hC : C ∈ componentsOf G) {x z : String} (hx : x ∈ C) (hadj : AdjP G x z) : z ∈ C := by
  have hinv := partInv_componentsOf G hWF
  have hxn : x ∈ G.nodes := hinv.member_nodes C hC x hx
  have hsb : SameBlock (componentsOf G) x z :=
    conn_sameBlock hWF hxn (Relation.ReflTransGen.single hadj)
  rcases hsb with ⟨b, hb, hxb, hzb⟩
  exact (mem_block_unique hinv hb hC hxb hx) ▸ hzb

theorem conn_stays_in_block {G : Graph} (hWF : G.WF) {C : List String}
    (hC : C ∈ componentsOf G) {x y : String} (hx : x ∈ C) (h : Conn G x y) : y ∈ C := by
  induction h with
  | refl => exact hx
  | tail hxy hadj ih => exact block_closed hWF hC ih hadj

/-! ## The induced subgraph on the largest component is connected -/

theorem removeNodes_WF {G : Graph} (hWF : G.WF) (rem : List String) :
    (G.removeNodes rem).WF := by
  constructor
  · exact hWF.1.filter _
  · intro e he
    have hm := List.mem_filter.mp he
    have hend := hWF.2 e hm.1
    have h2 : ¬(rem.contains e.1 = true) ∧ ¬(rem.contains e.2.1 = true) := by
      simpa using hm.2
    constructor
    · exact List.mem_filter.mpr ⟨hend.1, by simpa using h2.1⟩
    · exact List.mem_filter.mpr ⟨hend.2, by simpa using h2.2⟩

theorem mem_removeNodes_nodes {G : Graph} {rem : List String} {x : String} :
    x ∈ (G.removeNodes rem).nodes ↔ x ∈ G.nodes ∧ x ∉ rem := by
  unfold Graph.removeNodes
  simp [List.mem_filter]

theorem mem_removeNodes_edges {G : Graph} {rem : List String} {e : String × String × Nat} :
    e ∈ (G.removeNodes rem).edges ↔ e ∈ G.edges ∧ e.1 ∉ rem ∧ e.2.1 ∉ rem := by
  unfold Graph.removeNodes
  simp [List.mem_filter]

theorem mem_induced_nodes {G : Graph} {C : List String} {x : String} :
    x ∈ (G.removeNodes (G.nodes.filter fun u => !(C.contains u))).nodes
      ↔ x ∈ G.nodes ∧ x ∈ C := by
  rw [mem_removeNodes_nodes]
  constructor
  · rintro ⟨h1, h2⟩
    refine ⟨h1, ?_⟩
    by_contra hc
    exact h2 (List.mem_filter.mpr ⟨h1, by simpa using hc⟩)
  · rintro ⟨h1, h2⟩
    refine ⟨h1, fun hc => ?_⟩
    have := (List.mem_filter.mp hc).2
    simp at this
    exact this h2

theorem conn_induced {G : Graph} (hWF : G.WF) {C : List String}
    (hC : C ∈ componentsOf G) {x y : String} (hx : x ∈ C) (h : Conn G x y) :
    Conn (G.removeNodes (G.nodes.filter fun u => !(C.contains u))) x y := by
  induction h with
  | refl => exact Relation.ReflTransGen.refl
  | tail hxy hadj ih =>
    rename_i y' z'
    have hy' : y' ∈ C := conn_stays_in_block hWF hC hx hxy
    have hz' : z' ∈ C := block_closed hWF hC hy' hadj
    apply Relation.ReflTransGen.tail ih
    rcases hadj with ⟨e, he, hor⟩
    have hinv := partInv_componentsOf G hWF
    have he1C : e.1 ∈ C ∧ e.2.1 ∈ C := by
      rcases hor with ⟨h1, h2⟩ | ⟨h1, h2⟩
      · exact ⟨h1 ▸ hy', h2 ▸ hz'⟩
      · exact ⟨h1 ▸ hz', h2 ▸ hy'⟩
    refine ⟨e, ?_, hor⟩
    rw [mem_removeNodes_edges]
    refine ⟨he, ?_, ?_⟩
    · intro hc
      have := (List.mem_filter.mp hc).2
      simp at this
      exact this he1C.1
    · intro hc
      have := (List.mem_filter.mp hc).2
      simp at this
      exact this he1C.2

theorem largestBlock_mem (p : List (List String)) (h : p ≠ []) : largestBlock p ∈ p := by
  match p with
  | [] => exact absurd rfl h
  | b :: bs =>
    have main : ∀ (bs' : List (List String)) (best : List String),
        bs'.foldl (fun best c => if best.length < c.length then c else best) best
          ∈ best :: bs' := by
      intro bs'
      induction bs' with
      | nil => intro best; exact List.mem_singleton_self best
      | cons c cs ih =>
        intro best
        rw [List.foldl_cons]
        by_cases hlen : best.length < c.length
        · rw [if_pos hlen]
          rcases List.mem_cons.mp (ih c) with h1 | h1
          · rw [h1]
            exact List.mem_cons_of_mem _ (List.mem_cons_self _ _)
          · exact List.mem_cons_of_mem _ (List.mem_cons_of_mem _ h1)
        · rw [if_neg hlen]
          rcases List.mem_cons.mp (ih best) with h1 | h1
          · rw [h1]
            exact List.mem_cons_self _ _
          · exact List.mem_cons_of_mem _ (List.mem_cons_of_mem _ h1)
    exact main bs b

theorem blocks_length_one (p : List (List String)) (hne : p ≠ [])
    (hbne : ∀ b ∈ p, b ≠ []) (hdisj : p.Pairwise Disj)
    (hall : ∀ b1 ∈ p, ∀ b2 ∈ p, ∀ x ∈ b1, ∀ y ∈ b2, SameBlock p x y) :
    p.length = 1 := by
  match p with
  | [] => exact absurd rfl hne
  | [b] => rfl
  | b1 :: b2 :: rest =>
    exfalso
    have h1 : b1 ≠ [] := hbne b1 (List.mem_cons_self _ _)
    have h2 : b2 ≠ [] := hbne b2 (List.mem_cons_of_mem _ (List.mem_cons_self _ _))
    obtain ⟨x, hx⟩ := List.exists_mem_of_ne_nil b1 h1
    obtain ⟨y, hy⟩ := List.exists_mem_of_ne_nil b2 h2
    rcases hall b1 (List.mem_cons_self _ _) b2
      (List.mem_cons_of_mem _ (List.mem_cons_self _ _)) x hx y hy with ⟨b, hb, hxb, hyb⟩
    have hd12 : Disj b1 b2 :=
      (List.pairwise_cons.mp hdisj).1 b2 (List.mem_cons_self _ _)
    rcases List.mem_cons.mp hb with rfl | hb
    · exact hd12 y hyb hy
    · exact (List.pairwise_cons.mp hdisj).1 b hb x hx hxb

/-- After `giant_component_only` keeps the largest component, the remaining
graph is nonempty and connected, so `is_connected` returns `ok true` on it. -/
theorem giant_result_connected {G : Graph} (hWF : G.WF) (hne : G.nodes ≠ []) :
    isConnectedE (G.removeNodes
      (G.nodes.filter fun u => !((largestBlock (componentsOf G)).contains u))) =
      Except.ok true := by
  have hinv := partInv_componentsOf G hWF
  have hcne : componentsOf G ≠ [] := by
    obtain ⟨x, hx⟩ := List.exists_mem_of_ne_nil G.nodes hne
    rcases hinv.cover x hx with ⟨b, hb, _⟩
    intro hc
    rw [hc] at hb
    simp at hb
  set C := largestBlock (componentsOf G) with hCdef
  have hC : C ∈ componentsOf G := largestBlock_mem _ hcne
  have hCne : C ≠ [] := hinv.blocks_nonempty C hC
  set Gi := G.removeNodes (G.nodes.filter fun u => !(C.contains u)) with hGi
  have hGiWF : Gi.WF := removeNodes_WF hWF _
  have hGinodes : ∀ x, x ∈ Gi.nodes ↔ x ∈ G.nodes ∧ x ∈ C := fun x => mem_induced_nodes
  have hGine : Gi.nodes ≠ [] := by
    obtain ⟨x, hx⟩ := List.exists_mem_of_ne_nil C hCne
    have hxn : x ∈ G.nodes := hinv.member_nodes C hC x hx
    intro hc
    have := (hGinodes x).mpr ⟨hxn, hx⟩
    rw [hc] at this
    simp at this
  have hGiinv := partInv_componentsOf Gi hGiWF
  have hlen : (componentsOf Gi).length = 1 := by
    apply blocks_length_one _ ?_ hGiinv.blocks_nonempty hGiinv.pdisj
    · intro b1 hb1 b2 hb2 x hxb1 y hyb2
      have hxGi : x ∈ Gi.nodes := hGiinv.member_nodes b1 hb1 x hxb1
      have hyGi : y ∈ Gi.nodes := hGiinv.member_nodes b2 hb2 y hyb2
      have hxC : x ∈ C := ((hGinodes x).mp hxGi).2
      have hyC : y ∈ C := ((hGinodes y).mp hyGi).2
      have hconnG : Conn G x y := hinv.sound C hC x hxC y hyC
      have hconnGi : Conn Gi x y := conn_induced hWF hC hxC hconnG
      exact conn_sameBlock hGiWF hxGi hconnGi
    · obtain ⟨x, hx⟩ := List.exists_mem_of_ne_nil Gi.nodes hGine
      rcases hGiinv.cover x hx with ⟨b, hb, _⟩
      intro hc
      rw [hc] at hb
      simp at hb
  unfold isConnectedE
  rw [if_neg (by simpa using hGine)]
  rw [hlen]
  rfl

/-! ## Stage lemmas for idempotence -/

theorem sameEdge_refl (e : String × String × Nat) : sameEdge e.1 e.2.1 e = true := by
  simp [sameEdge]

theorem removeEdges_nil (G : Graph) : G.removeEdges [] = G := by
  cases G with
  | mk n e a => simp [Graph.removeEdges]

theorem removeNodes_nil (G : Graph) : G.removeNodes [] = G := by
  cases G with
  | mk n e a => simp [Graph.removeNodes]

theorem edgeFilterStage_weights {w : Nat} (hw : 0 < w) (G : Graph) :
    ∀ e ∈ (edgeFilterStage w G).edges, w ≤ e.2.2 := by
  intro e he
  unfold edgeFilterStage at he
  rw [if_pos hw] at he
  unfold Graph.removeEdges at he
  have hm := List.mem_filter.mp he
  by_contra hc
  push_neg at hc
  have hrem : (e.1, e.2.1) ∈ (G.edges.filter fun e => e.2.2 < w).map fun e => (e.1, e.2.1) :=
    List.mem_map_of_mem _ (List.mem_filter.mpr ⟨hm.1, by simpa using hc⟩)
  have hany : ((G.edges.filter fun e => e.2.2 < w).map fun e => (e.1, e.2.1)).any
      (fun p => sameEdge p.1 p.2 e) = true :=
    List.any_eq_true.mpr ⟨(e.1, e.2.1), hrem, sameEdge_refl e⟩
  have := hm.2
  rw [hany] at this
  simp at this

theorem edgeFilterStage_id (w : Nat) (G : Graph)
    (h : 0 < w → ∀ e ∈ G.edges, w ≤ e.2.2) : edgeFilterStage w G = G := by
  unfold edgeFilterStage
  by_cases hw : 0 < w
  · rw [if_pos hw]
    have hnil : (G.edges.filter fun e => e.2.2 < w) = [] := by
      rw [List.filter_eq_nil_iff]
      intro e he
      have := h hw e he
      simp
      omega
    rw [hnil]
    simp only [List.map_nil]
    exact removeEdges_nil G
  · rw [if_neg hw]

theorem removeNodes_edges_subset (G : Graph) (rem : List String) :
    ∀ e ∈ (G.removeNodes rem).edges, e ∈ G.edges := by
  intro e he
  exact (List.mem_filter.mp he).1

theorem removeNodes_nodes_subset (G : Graph) (rem : List String) :
    ∀ x ∈ (G.removeNodes rem).nodes, x ∈ G.nodes := by
  intro x hx
  exact (List.mem_filter.mp hx).1

theorem degreeFilterStage_edges_subset (dmin : Nat) (G : Graph) :
    ∀ e ∈ (degreeFilterStage dmin G).edges, e ∈ G.edges := by
  unfold degreeFilterStage
  split
  · exact removeNodes_edges_subset G _
  · intro e he; exact he

theorem topNStage_edges_subset (tn : Option Nat) (G : Graph) :
    ∀ e ∈ (topNStage tn G).edges, e ∈ G.edges := by
  match tn with
  | none => intro e he; exact he
  | some n =>
    by_cases hn : n = 0
    · rw [topNStage, if_pos hn]
      intro e he; exact he
    · rw [topNStage, if_neg hn]
      exact removeNodes_edges_subset G _

theorem topNStage_WF (tn : Option Nat) (G : Graph) (hWF : G.WF) : (topNStage tn G).WF := by
  match tn with
  | none => exact hWF
  | some n =>
    by_cases hn : n = 0
    · rw [topNStage, if_pos hn]
      exact hWF
    · rw [topNStage, if_neg hn]
      exact removeNodes_WF hWF _

theorem degreeFilterStage_WF (dmin : Nat) (G : Graph) (hWF : G.WF) :
    (degreeFilterStage dmin G).WF := by
  unfold degreeFilterStage
  split
  · exact removeNodes_WF hWF _
  · exact hWF

theorem edgeFilterStage_WF (w : Nat) (G : Graph) (hWF : G.WF) : (edgeFilterStage w G).WF := by
  unfold edgeFilterStage
  split
  · constructor
    · exact hWF.1
    · intro e he
      exact hWF.2 e (List.mem_filter.mp he).1
  · exact hWF

theorem insDesc_perm (x : String × Nat) (l : List (String × Nat)) :
    (insDesc x l).Perm (x :: l) := by
  induction l with
  | nil => exact List.Perm.refl _
  | cons y ys ih =>
    unfold insDesc
    split
    · exact List.Perm.refl _
    · exact (List.Perm.cons y ih).trans (List.Perm.swap x y ys)

theorem sortDesc_perm (l : List (String × Nat)) : (sortDesc l).Perm l := by
  induction l with
  | nil => exact List.Perm.refl _
  | cons a l ih =>
    unfold sortDesc at ih ⊢
    rw [List.foldr_cons]
    exact (insDesc_perm a _).trans (List.Perm.cons a ih)

theorem topNStage_card (n : Nat) (hn : n ≠ 0) (G : Graph) (hWF : G.WF) :
    (topNStage (some n) G).nodes.length ≤ n := by
  rw [topNStage, if_neg hn]
  have hsub : ∀ x ∈ (G.removeNodes (G.nodes.filter fun u =>
      !((((sortDesc (G.nodes.map fun u => (u, G.degree u))).take n).map (·.1)).contains u))).nodes,
      x ∈ (((sortDesc (G.nodes.map fun u => (u, G.degree u))).take n).map (·.1)) := by
    intro x hx
    rw [mem_removeNodes_nodes] at hx
    obtain ⟨hxn, hxnotrem⟩ := hx
    by_contra hc
    exact hxnotrem (List.mem_filter.mpr ⟨hxn, by simpa using hc⟩)
  have hnd := (removeNodes_WF hWF (G.nodes.filter fun u =>
      !((((sortDesc (G.nodes.map fun u => (u, G.degree u))).take n).map (·.1)).contains u))).1
  have hsp := List.subperm_of_subset hnd hsub
  have hle := hsp.length_le
  have hkeeplen : ((((sortDesc (G.nodes.map fun u => (u, G.degree u))).take n).map (·.1))).length
      ≤ n := by
    rw [List.length_map]
    exact List.length_take_le n _
  omega

theorem topNStage_id (tn : Option Nat) (G : Graph)
    (h : ∀ n, tn = some n → n ≠ 0 → G.nodes.length ≤ n) : topNStage tn G = G := by
  match tn with
  | none => rfl
  | some n =>
    by_cases hn : n = 0
    · rw [topNStage, if_pos hn]
    · rw [topNStage, if_neg hn]
      have hlen : G.nodes.length ≤ n := h n rfl hn
      have hkeepall : ∀ u ∈ G.nodes,
          u ∈ (((sortDesc (G.nodes.map fun u => (u, G.degree u))).take n).map (·.1)) := by
        intro u hu
        have hsort_len : (sortDesc (G.nodes.map fun u => (u, G.degree u))).length
            = G.nodes.length := by
          rw [(sortDesc_perm _).length_eq, List.length_map]
        have htake : (sortDesc (G.nodes.map fun u => (u, G.degree u))).take n
            = sortDesc (G.nodes.map fun u => (u, G.degree u)) :=
          List.take_of_length_le (by omega)
        rw [htake]
        have hmem : (u, G.degree u) ∈ sortDesc (G.nodes.map fun u => (u, G.degree u)) :=
          ((sortDesc_perm _).mem_iff).mpr (List.mem_map_of_mem _ hu)
        exact List.mem_map.mpr ⟨(u, G.degree u), hmem, rfl⟩
      have hrem : (G.nodes.filter fun u =>
          !((((sortDesc (G.nodes.map fun u => (u, G.degree u))).take n).map (·.1)).contains u))
          = [] := by
        rw [List.filter_eq_nil_iff]
        intro u hu
        simp only [Bool.not_eq_true, Bool.not_eq_false]
        simpa using hkeepall u hu
      rw [hrem, removeNodes_nil]

theorem giantStage_ok_facts (gc : Bool) (G G' : Graph) (hWF : G.WF)
    (h : giantStage gc G = Except.ok G') :
    G'.WF ∧ (∀ e ∈ G'.edges, e ∈ G.edges) ∧ (∀ x ∈ G'.nodes, x ∈ G.nodes) ∧
      (gc = true → isConnectedE G' = Except.ok true) := by
  unfold giantStage at h
  by_cases hgc : gc = true
  · rw [if_pos hgc] at h
    cases hic : isConnectedE G with
    | error msg =>
      rw [hic] at h
      exact absurd h (by simp)
    | ok c =>
      rw [hic] at h
      cases c with
      | true =>
        simp only [if_pos] at h
        have hGG' : G = G' := by
          simpa using h
        subst hGG'
        exact ⟨hWF, fun e he => he, fun x hx => hx, fun _ => hic⟩
      | false =>
        simp only [Bool.false_eq_true, if_neg, if_false] at h
        have hG' : G' = G.removeNodes
            (G.nodes.filter fun u => !((largestBlock (componentsOf G)).contains u)) :=
          (Except.ok.inj h).symm
        have hne : G.nodes ≠ [] := by
          intro hc
          unfold isConnectedE at hic
          rw [if_pos (by simpa using hc)] at hic
          exact Except.noConfusion hic
        subst hG'
        exact ⟨removeNodes_WF hWF _, removeNodes_edges_subset G _,
          removeNodes_nodes_subset G _, fun _ => giant_result_connected hWF hne⟩
  · rw [if_neg hgc] at h
    have hGG' : G = G' := by simpa using h
    subst hGG'
    exact ⟨hWF, fun e he => he, fun x hx => hx, fun hc => absurd hc hgc⟩

/-- C3 (amended): `filter_network` is idempotent whenever the configured
`min_degree` is at most 1 (its default), i.e. whenever the single-sweep
degree filter — the one non-idempotent stage — is disabled: if the first
application returns a graph, applying the same configuration to that graph
returns it unchanged. -/
theorem filter_network_idempotent (G : Graph) (cfg : FilteringConfig) (G' : Graph)
    (hWF : G.WF) (hmd : cfg.min_degree ≤ 1)
    (h : filter_network G cfg = Except.ok G') :
    filter_network G' cfg = Except.ok G' := by
  obtain ⟨md, w, tn, gc⟩ := cfg
  simp only at hmd
  unfold filter_network at h ⊢
  simp only at h ⊢
  have hdeg1 : degreeFilterStage md (edgeFilterStage w G) = edgeFilterStage w G := by
    unfold degreeFilterStage
    rw [if_neg (by omega)]
  rw [hdeg1] at h
  have hG1WF : (edgeFilterStage w G).WF := edgeFilterStage_WF w G hWF
  have hG3WF : (topNStage tn (edgeFilterStage w G)).WF := topNStage_WF tn _ hG1WF
  obtain ⟨hG'WF, hEsub, hNsub, hGiant⟩ := giantStage_ok_facts gc _ G' hG3WF h
  have hstep1 : edgeFilterStage w G' = G' := by
    apply edgeFilterStage_id
    intro hw e he
    exact edgeFilterStage_weights hw G e (topNStage_edges_subset tn _ e (hEsub e he))
  have hstep2 : degreeFilterStage md G' = G' := by
    unfold degreeFilterStage
    rw [if_neg (by omega)]
  have hstep3 : topNStage tn G' = G' := by
    apply topNStage_id
    intro n htn hn
    subst htn
    have hc3 : (topNStage (some n) (edgeFilterStage w G)).nodes.length ≤ n :=
      topNStage_card n hn _ hG1WF
    have hsp := List.subperm_of_subset hG'WF.1 hNsub
    have := hsp.length_le
    omega
  rw [hstep1, hstep2, hstep3]
  by_cases hgc : gc = true
  · subst hgc
    unfold giantStage
    rw [if_pos rfl, hGiant rfl]
    rfl
  · unfold giantStage
    rw [if_neg hgc]

/-- C3 (witness): the amended idempotence theorem applied to a concrete run
that exercises the edge-weight, top-N and giant-component stages. -/
theorem filter_network_idempotent_witness :
    filter_network
        (Graph.mk ["a", "b", "c"] [("a", "b", 2), ("b", "c", 2), ("a", "c", 2)] [])
        (FilteringConfig.mk 1 2 (some 5) true)
      = Except.ok (Graph.mk ["a", "b", "c"] [("a", "b", 2), ("b", "c", 2), ("a", "c", 2)] []) := by
  apply filter_network_idempotent
      (Graph.mk ["a", "b", "c", "d", "e"]
        [("a", "b", 2), ("b", "c", 2), ("a", "c", 2), ("d", "e", 1)] [])
      (FilteringConfig.mk 1 2 (some 5) true)
  · decide
  · decide
  · decide

/-! ## C9: `filter_network` mutates only the copy, never its argument

The Python method receives a reference into an object store, calls
`G.copy()`, and mutates only the copy.  `filter_network_store` replays that
against an explicit store: `copy` appends a fresh slot, each in-place
mutation (`remove_edges_from`, `remove_nodes_from`) writes that slot, a
raised exception propagates leaving the store as it stands. -/

def mutateAt (s : List Graph) (r : Nat) (f : Graph → Graph) : List Graph :=
  match s[r]? with
  | none => s
  | some G => s.set r (f G)

/-- The store after `filtered_G = G.copy()` and the three in-place filter
mutations have run (`copy` appends the fresh slot `s.length`). -/
def storeAfterMutations (s : List Graph) (G : Graph) (cfg : FilteringConfig) : List Graph :=
  mutateAt (mutateAt (mutateAt (s ++ [G]) s.length (edgeFilterStage cfg.min_edge_weight))
    s.length (degreeFilterStage cfg.min_degree)) s.length (topNStage cfg.top_n_nodes)

/-- The tail of the method: read the mutated copy, run the giant-component
stage (which can raise), and either write the final copy back or propagate
the exception. -/
def filterOutcome (s4 : List Graph) (idx : Nat) (gc : Bool) :
    (Except String Nat) × List Graph :=
  match s4[idx]? with
  | none => (Except.error "KeyError", s4)
  | some Gf =>
    match giantStage gc Gf with
    | Except.error e => (Except.error e, s4)
    | Except.ok Gg => (Except.ok idx, s4.set idx Gg)

theorem mutateAt_getElem_lt (s : List Graph) (r rq : Nat) (f : Graph → Graph)
    (hne : rq ≠ r) : (mutateAt s r f)[rq]? = s[rq]? := by
  unfold mutateAt
  cases s[r]? with
  | none => rfl
  | some G => exact List.getElem?_set_ne (fun hh => hne hh.symm)

theorem mutateAt_length (s : List Graph) (r : Nat) (f : Graph → Graph) :
    (mutateAt s r f).length = s.length := by
  unfold mutateAt
  cases s[r]? with
  | none => rfl
  | some G => exact List.length_set s r (f G)

def filter_network_store (s : List Graph) (r : Nat) (cfg : FilteringConfig) :
    (Except String Nat) × List Graph :=
  match s[r]? with
  | none => (Except.error "KeyError", s)
  | some G => filterOutcome (storeAfterMutations s G cfg) s.length cfg.giant_component_only

theorem storeAfterMutations_frame (s : List Graph) (G : Graph) (cfg : FilteringConfig)
    (rq : Nat) (hq : rq < s.length) :
    (storeAfterMutations s G cfg)[rq]? = s[rq]? := by
  have hne : rq ≠ s.length := by omega
  unfold storeAfterMutations
  rw [mutateAt_getElem_lt _ _ _ _ hne, mutateAt_getElem_lt _ _ _ _ hne,
    mutateAt_getElem_lt _ _ _ _ hne]
  exact List.getElem?_append_left hq

theorem filterOutcome_frame (s4 : List Graph) (idx : Nat) (gc : Bool) (rq : Nat)
    (hne : rq ≠ idx) : ((filterOutcome s4 idx gc).2)[rq]? = s4[rq]? := by
  unfold filterOutcome
  cases h1 : s4[idx]? with
  | none => rfl
  | some Gf =>
    show ((match giantStage gc Gf with
      | Except.error e => (Except.error e, s4)
      | Except.ok Gg => (Except.ok idx, s4.set idx Gg)).2)[rq]? = s4[rq]?
    cases h2 : giantStage gc Gf with
    | error msg => rfl
    | ok Gg => exact List.getElem?_set_ne (fun hh => hne hh.symm)

/-- C9: `filter_network` operates on a copy and leaves its input graph (and
every other pre-existing graph in the store) untouched — with the same node
set, edge set, edge weights and node attributes — whether it returns
normally or propagates the `nx.is_connected` exception. -/
theorem filter_network_preserves_input (s : List Graph) (r rq : Nat)
    (cfg : FilteringConfig) (hq : rq < s.length) :
    ((filter_network_store s r cfg).2)[rq]? = s[rq]? := by
  have hne : rq ≠ s.length := by omega
  unfold filter_network_store
  cases h0 : s[r]? with
  | none => rfl
  | some G =>
    show ((filterOutcome (storeAfterMutations s G cfg) s.length
      cfg.giant_component_only).2)[rq]? = s[rq]?
    rw [filterOutcome_frame _ _ _ _ hne]
    exact storeAfterMutations_frame s G cfg rq hq

/-- C9 (witness): a concrete two-graph store; filtering the graph in slot 0
leaves slot 0 exactly as it was. -/
theorem filter_network_preserves_input_witness :
    ((filter_network_store
        [Graph.mk ["a", "b", "c", "d"] [("a", "b", 1), ("b", "c", 1), ("c", "d", 1)] [],
         Graph.mk ["x"] [] []] 0 (FilteringConfig.mk 2 1 (some 2) true)).2)[0]?
      = some (Graph.mk ["a", "b", "c", "d"] [("a", "b", 1), ("b", "c", 1), ("c", "d", 1)] []) := by
  have h := filter_network_preserves_input
    [Graph.mk ["a", "b", "c", "d"] [("a", "b", 1), ("b", "c", 1), ("c", "d", 1)] [],
     Graph.mk ["x"] [] []] 0 0 (FilteringConfig.mk 2 1 (some 2) true) (by decide)
  rw [h]
  rfl

theorem mutateAt_getElem_self (s : List Graph) (r : Nat) (f : Graph → Graph) (G : Graph)
    (h : s[r]? = some G) (hlt : r < s.length) : (mutateAt s r f)[r]? = some (f G) := by
  unfold mutateAt
  rw [h]
  exact List.getElem?_set_self hlt

/-- The stored run computes the same outcome as the pure pipeline
(consistency of the store model with the pure embedding). -/
theorem filter_network_store_consistent (s : List Graph) (r : Nat) (G : Graph)
    (cfg : FilteringConfig) (hr : s[r]? = some G) :
    (filter_network_store s r cfg).1
      = Except.map (fun _ => s.length) (filter_network G cfg) := by
  have hget0 : (s ++ [G])[s.length]? = some G := by
    rw [List.getElem?_append_right (le_refl _)]
    simp
  have hlt0 : s.length < (s ++ [G]).length := by
    rw [List.length_append]
    simp
  have hget1 := mutateAt_getElem_self (s ++ [G]) s.length
    (edgeFilterStage cfg.min_edge_weight) G hget0 hlt0
  have hlt1 : s.length < (mutateAt (s ++ [G]) s.length
      (edgeFilterStage cfg.min_edge_weight)).length := by
    rw [mutateAt_length]
    exact hlt0
  have hget2 := mutateAt_getElem_self _ s.length
    (degreeFilterStage cfg.min_degree) _ hget1 hlt1
  have hlt2 : s.length < (mutateAt (mutateAt (s ++ [G]) s.length
      (edgeFilterStage cfg.min_edge_weight)) s.length
      (degreeFilterStage cfg.min_degree)).length := by
    rw [mutateAt_length]
    exact hlt1
  have hget3 := mutateAt_getElem_self _ s.length
    (topNStage cfg.top_n_nodes) _ hget2 hlt2
  unfold filter_network_store
  rw [hr]
  show (filterOutcome (storeAfterMutations s G cfg) s.length
      cfg.giant_component_only).1 = _
  unfold filterOutcome
  rw [show (storeAfterMutations s G cfg)[s.length]?
      = some (topNStage cfg.top_n_nodes (degreeFilterStage cfg.min_degree
        (edgeFilterStage cfg.min_edge_weight G))) from hget3]
  show (match giantStage cfg.giant_component_only
      (topNStage cfg.top_n_nodes (degreeFilterStage cfg.min_degree
        (edgeFilterStage cfg.min_edge_weight G))) with
    | Except.error e => (Except.error e, storeAfterMutations s G cfg)
    | Except.ok Gg => (Except.ok s.length, (storeAfterMutations s G cfg).set s.length Gg)).1
    = Except.map (fun _ => s.length) (filter_network G cfg)
  unfold filter_network
  cases hg : giantStage cfg.giant_component_only
      (topNStage cfg.top_n_nodes
        (degreeFilterStage cfg.min_degree (edgeFilterStage cfg.min_edge_weight G))) with
  | error msg => rfl
  | ok Gg => rfl

/-! ## Metrics engine (`MetricsCalculator`), claims C4 and C5

Floating-point metric values are represented as rationals; node-level
metric computation (`_calculate_node_metrics`) never decides either claim —
C4's failure is in the graph-level path and C5 is about which keys the
bundle carries — so it is a parameter `nodeCalc` of the embedding,
quantified over in the theorems, with a concrete degree-centrality
instantiation used for evaluation. -/

structure MetricsConfig where
  node_metrics : List String
  graph_metrics : List String
deriving DecidableEq, Repr

inductive MVal where
  | nat : Nat → MVal
  | rat : ℚ → MVal
deriving DecidableEq, Repr

/-- `nx.density` for an undirected graph (0 for the empty cases). -/
def nxDensity (G : Graph) : ℚ :=
  if G.nodes.length ≤ 1 ∨ G.edges.length = 0 then 0
  else (2 * G.edges.length : ℚ) / ((G.nodes.length : ℚ) * ((G.nodes.length : ℚ) - 1))

def neighborsOf (G : Graph) (u : String) : List String :=
  G.edges.foldr
    (fun e acc =>
      if e.1 == u then e.2.1 :: acc else if e.2.1 == u then e.1 :: acc else acc) []

/-- Breadth-first levels from a frontier (fuel-bounded, enough fuel below). -/
def bfsLevels (G : Graph) : List String → List String → Nat → List (List String)
  | _, _, 0 => []
  | frontier, visited, fuel + 1 =>
    if (G.nodes.filter fun v =>
        !(visited.contains v) && frontier.any fun u => (neighborsOf G u).contains v).isEmpty
    then []
    else (G.nodes.filter fun v =>
        !(visited.contains v) && frontier.any fun u => (neighborsOf G u).contains v)
      :: bfsLevels G
        (G.nodes.filter fun v =>
          !(visited.contains v) && frontier.any fun u => (neighborsOf G u).contains v)
        (visited ++ G.nodes.filter fun v =>
          !(visited.contains v) && frontier.any fun u => (neighborsOf G u).contains v)
        fuel

def levelsToDists : List (List String) → Nat → List (String × Nat)
  | [], _ => []
  | l :: ls, d => l.map (fun v => (v, d)) ++ levelsToDists ls (d + 1)

/-- Unweighted shortest-path distances from `s` (on a connected graph). -/
def distsFrom (G : Graph) (s : String) : List (String × Nat) :=
  (s, 0) :: levelsToDists (bfsLevels G [s] [s] G.nodes.length) 1

def eccentricity (G : Graph) (s : String) : Nat :=
  ((distsFrom G s).map (·.2)).foldl max 0

/-- `nx.diameter` on a connected graph. -/
def nxDiameter (G : Graph) : Nat := (G.nodes.map (eccentricity G)).foldl max 0

/-- `nx.average_shortest_path_length` on a connected graph. -/
def nxAvgPathLength (G : Graph) : ℚ :=
  if G.nodes.length ≤ 1 then 0
  else (((G.nodes.map fun s => ((distsFrom G s).map (·.2)).foldl (· + ·) 0).foldl (· + ·) 0 : Nat) : ℚ)
    / ((G.nodes.length : ℚ) * ((G.nodes.length : ℚ) - 1))

def minOfList : List Nat → Nat
  | [] => 0
  | d :: rest => rest.foldl min d

/-- The dictionary built by `_calculate_graph_level_metrics` when the
`nx.is_connected` call reported `c` (the function raises before returning
anything on the null graph, so the dict exists only in the non-raising
case). -/
def calcGraphLevelList (c : Bool) (req : List String) (G : Graph) : List (String × MVal) :=
  [("num_nodes", MVal.nat G.numberOfNodes), ("num_edges", MVal.nat G.numberOfEdges)]
  ++ (if req.contains "density" then [("density", MVal.rat (nxDensity G))] else [])
  ++ [("num_components", MVal.nat (componentsOf G).length)]
  ++ (if 0 < (componentsOf G).length then
      [("largest_component_size", MVal.nat (largestBlock (componentsOf G)).length)] else [])
  ++ (if c && req.contains "diameter" then [("diameter", MVal.nat (nxDiameter G))] else [])
  ++ (if c && req.contains "average_path_length" then
      [("avg_path_length", MVal.rat (nxAvgPathLength G))] else [])
  ++ (if G.nodes.isEmpty then []
      else [("avg_degree", MVal.rat
              (((G.nodes.map G.degree).foldl (· + ·) 0 : Nat) / ((G.nodes.length : ℚ)))),
            ("max_degree", MVal.nat ((G.nodes.map G.degree).foldl max 0)),
            ("min_degree", MVal.nat (minOfList (G.nodes.map G.degree)))])

/-- `MetricsCalculator._calculate_graph_level_metrics`: raises
`NetworkXPointlessConcept` (through the unguarded `nx.is_connected` call)
on the null graph, otherwise returns the metrics dict. -/
def calcGraphLevel (req : List String) (G : Graph) : Except String (List (String × MVal)) :=
  match isConnectedE G with
  | Except.error e => Except.error e
  | Except.ok c => Except.ok (calcGraphLevelList c req G)

structure MetricsBundle where
  node_metrics : Option (List (String × List (String × ℚ)))
  graph_metrics : Option (List (String × MVal))
deriving DecidableEq, Repr

/-- `MetricsCalculator.calculate_graph_metrics`: the `node_metrics` /
`graph_metrics` sub-dicts are attached only when the respective metric list
in the configuration is nonempty. -/
def calculate_graph_metrics
    (nodeCalc : List String → Graph → List (String × List (String × ℚ)))
    (cfg : MetricsConfig) (G : Graph) : Except String MetricsBundle :=
  if cfg.graph_metrics.isEmpty then
    Except.ok (MetricsBundle.mk
      (if cfg.node_metrics.isEmpty then none else some (nodeCalc cfg.node_metrics G)) none)
  else
    match calcGraphLevel cfg.graph_metrics G with
    | Except.error e => Except.error e
    | Except.ok gm => Except.ok (MetricsBundle.mk
        (if cfg.node_metrics.isEmpty then none else some (nodeCalc cfg.node_metrics G))
        (some gm))

/-- `nx.degree_centrality` (1 for every node of a graph with at most one
node, degree/(n-1) otherwise). -/
def degreeCentrality (G : Graph) : List (String × ℚ) :=
  if G.nodes.length ≤ 1 then G.nodes.map fun n => (n, 1)
  else G.nodes.map fun n => (n, (G.degree n : ℚ) / ((G.nodes.length : ℚ) - 1))

/-- A concrete node-metric computation used to instantiate `nodeCalc` when
evaluating on closed inputs. -/
def nodeCalcDegree (req : List String) (G : Graph) : List (String × List (String × ℚ)) :=
  if req.contains "degree_centrality" then [("degree_centrality", degreeCentrality G)] else []

/-- C4: the claim is right and the code is wrong.  On the empty graph with
any graph metric requested, `_calculate_graph_level_metrics` reaches the
unguarded `nx.is_connected(G)` call, which raises `NetworkXPointlessConcept`
for the null graph, so `calculate_graph_metrics` aborts instead of returning
a near-empty bundle. -/
theorem metrics_empty_graph_raises :
    calcGraphLevel ["density"] Graph.empty
      = Except.error "Connectivity is undefined for the null graph."
    ∧ calculate_graph_metrics nodeCalcDegree (MetricsConfig.mk [] ["density"]) Graph.empty
      = Except.error "Connectivity is undefined for the null graph." := by
  exact ⟨rfl, rfl⟩

/-- C5 (counterexample): with no graph metrics (and no node metrics)
requested, the returned bundle is entirely empty — it contains no
`num_nodes`/`num_edges` entry anywhere, contradicting "always-present". -/
theorem metrics_bundle_missing_counts_counterexample :
    calculate_graph_metrics nodeCalcDegree (MetricsConfig.mk [] [])
        (Graph.mk ["a", "b"] [("a", "b", 1)] [])
      = Except.ok (MetricsBundle.mk none none) := by
  rfl

/-- C5 (amended): `num_nodes` and `num_edges` (equal to the graph's node and
edge counts) are present — as the first two entries of the `graph_metrics`
sub-dict — whenever at least one graph metric is requested and the call
returns (it raises on the null graph); with an empty `graph_metrics`
configuration they are absent.  Holds for every node-metric computation. -/
theorem metrics_bundle_counts
    (nodeCalc : List String → Graph → List (String × List (String × ℚ)))
    (cfg : MetricsConfig) (G : Graph)
    (hg : cfg.graph_metrics ≠ []) (hn : G.nodes ≠ []) :
    ∃ rest, calculate_graph_metrics nodeCalc cfg G
      = Except.ok (MetricsBundle.mk
          (if cfg.node_metrics.isEmpty then none else some (nodeCalc cfg.node_metrics G))
          (some (("num_nodes", MVal.nat G.numberOfNodes)
            :: ("num_edges", MVal.nat G.numberOfEdges) :: rest))) := by
  unfold calculate_graph_metrics
  rw [if_neg (by simpa using hg)]
  have hic : isConnectedE G = Except.ok ((componentsOf G).length == 1) := by
    unfold isConnectedE
    rw [if_neg (by simpa using hn)]
  unfold calcGraphLevel
  rw [hic]
  exact ⟨_, rfl⟩

/-- C5 (witness): the amended theorem applied to a one-edge graph with
`graph_metrics = ["density"]`. -/
theorem metrics_bundle_counts_witness :
    ∃ rest, calculate_graph_metrics nodeCalcDegree (MetricsConfig.mk [] ["density"])
        (Graph.mk ["a", "b"] [("a", "b", 1)] [])
      = Except.ok (MetricsBundle.mk none
          (some (("num_nodes", MVal.nat 2) :: ("num_edges", MVal.nat 1) :: rest))) :=
  metrics_bundle_counts nodeCalcDegree (MetricsConfig.mk [] ["density"])
    (Graph.mk ["a", "b"] [("a", "b", 1)] []) (by decide) (by decide)

/-! ## Community summaries (`CommunityDetector.get_community_info`), claim C6 -/

structure CommunityInfo where
  id : Nat
  label : String
  size : Nat
  nodes : List String
  top_nodes : List (String × ℚ)
  density : ℚ
deriving DecidableEq, Repr

/-- `defaultdict(list)` grouping of partition items, insertion-ordered. -/
def addToGroup : List (Nat × List String) → String → Nat → List (Nat × List String)
  | [], node, cid => [(cid, [node])]
  | (c, ns) :: rest, node, cid =>
    if c = cid then (c, ns ++ [node]) :: rest else (c, ns) :: addToGroup rest node cid

def groupByComm (partition : List (String × Nat)) : List (Nat × List String) :=
  partition.foldl (fun acc p => addToGroup acc p.1 p.2) []

/-- `G.subgraph(nodes)`: the induced subgraph. -/
def subgraphOn (G : Graph) (ns : List String) : Graph :=
  G.removeNodes (G.nodes.filter fun u => !(ns.contains u))

def insDescQ (x : String × ℚ) : List (String × ℚ) → List (String × ℚ)
  | [] => [x]
  | y :: ys => if y.2 ≤ x.2 then x :: y :: ys else y :: insDescQ x ys

/-- Stable descending sort by centrality value, as Python's
`sorted(..., key=lambda x: x[1], reverse=True)`. -/
def sortDescQ (l : List (String × ℚ)) : List (String × ℚ) := l.foldr insDescQ []

def topsOf (G : Graph) (ns : List String) : List (String × ℚ) :=
  if 0 < ns.length then (sortDescQ (degreeCentrality (subgraphOn G ns))).take 5 else []

/-- `" / ".join(top two names)`, or the fallback label. -/
def communityLabel (tops : List (String × ℚ)) (cid : Nat) : String :=
  match tops with
  | [] => "Community " ++ toString cid
  | [t] => t.1
  | t1 :: t2 :: _ => t1.1 ++ " / " ++ t2.1

def mkCommunityInfo (G : Graph) (cid : Nat) (ns : List String) : CommunityInfo :=
  CommunityInfo.mk cid (communityLabel (topsOf G ns) cid) ns.length ns (topsOf G ns)
    (if 1 < ns.length then nxDensity (subgraphOn G ns) else 0)

def insInfo (x : CommunityInfo) : List CommunityInfo → List CommunityInfo
  | [] => [x]
  | y :: ys => if y.size ≤ x.size then x :: y :: ys else y :: insInfo x ys

/-- `community_info.sort(key=lambda x: x['size'], reverse=True)`: Python's
stable descending sort by size. -/
def sortInfos (l : List CommunityInfo) : List CommunityInfo := l.foldr insInfo []

/-- `CommunityDetector.get_community_info` (the `entities_data` argument is
unused by the source body too). -/
def get_community_info (G : Graph) (partition : List (String × Nat)) (d : EntitiesData) :
    List CommunityInfo :=
  sortInfos ((groupByComm partition).map fun p => mkCommunityInfo G p.1 p.2)

/-- Lowest member node name of a community (Python string order). -/
def minName (i : CommunityInfo) : String :=
  match i.nodes with
  | [] => ""
  | n :: rest => rest.foldl (fun a b => if strLe a b then a else b) n

/-- The ordering the claim asserts: size descending, ties by ascending
lowest member name. -/
def claimOrdered (l : List CommunityInfo) : Prop :=
  l.Pairwise fun a b => b.size < a.size ∨ (b.size = a.size ∧ strLtB (minName a) (minName b) = true)

theorem mem_insInfo {x z : CommunityInfo} : ∀ {l : List CommunityInfo},
    z ∈ insInfo x l → z = x ∨ z ∈ l := by
  intro l
  induction l with
  | nil => intro h; simp [insInfo] at h; exact Or.inl h
  | cons y ys ih =>
    intro h
    unfold insInfo at h
    split at h
    · rcases List.mem_cons.mp h with h1 | h1
      · exact Or.inl h1
      · exact Or.inr h1
    · rcases List.mem_cons.mp h with h1 | h1
      · exact Or.inr (h1 ▸ List.mem_cons_self _ _)
      · rcases ih h1 with h2 | h2
        · exact Or.inl h2
        · exact Or.inr (List.mem_cons_of_mem _ h2)

theorem pairwise_insInfo {x : CommunityInfo} : ∀ {l : List CommunityInfo},
    l.Pairwise (fun a b => b.size ≤ a.size) →
    (insInfo x l).Pairwise (fun a b => b.size ≤ a.size) := by
  intro l
  induction l with
  | nil => intro _; simp [insInfo]
  | cons y ys ih =>
    intro h
    obtain ⟨hhead, htail⟩ := List.pairwise_cons.mp h
    unfold insInfo
    split
    · rename_i hlt
      rw [List.pairwise_cons]
      constructor
      · intro z hz
        rcases List.mem_cons.mp hz with rfl | hz
        · omega
        · have := hhead z hz
          omega
      · exact h
    · rename_i hge
      rw [List.pairwise_cons]
      constructor
      · intro z hz
        rcases mem_insInfo hz with rfl | hz
        · omega
        · exact hhead z hz
      · exact ih htail

theorem insInfo_perm (x : CommunityInfo) (l : List CommunityInfo) :
    (insInfo x l).Perm (x :: l) := by
  induction l with
  | nil => exact List.Perm.refl _
  | cons y ys ih =>
    unfold insInfo
    split
    · exact List.Perm.refl _
    · exact (List.Perm.cons y ih).trans (List.Perm.swap x y ys)

/-- C6 (amended): the community summary list is a reordering of the
per-community summaries sorted by size descending; when two communities
have equal size their relative order is the stable (insertion) order of
first appearance in the partition — Python's stable sort keyed on size
alone — not an order derived from member names. -/
theorem get_community_info_sorted_by_size (G : Graph) (partition : List (String × Nat))
    (d : EntitiesData) :
    ((get_community_info G partition d).Pairwise fun a b => b.size ≤ a.size)
    ∧ (get_community_info G partition d).Perm
        ((groupByComm partition).map fun p => mkCommunityInfo G p.1 p.2) := by
  unfold get_community_info sortInfos
  induction ((groupByComm partition).map fun p => mkCommunityInfo G p.1 p.2) with
  | nil => exact ⟨List.Pairwise.nil, List.Perm.refl _⟩
  | cons x l ih =>
    rw [List.foldr_cons]
    exact ⟨pairwise_insInfo ih.1, (insInfo_perm x _).trans (List.Perm.cons x ih.2)⟩

/-- C6 (counterexample): two singleton communities, entered in the partition
as node "b" (community 0) then node "a" (community 1).  The sizes tie; the
code's stable sort keeps ["b"] before ["a"], whereas the claim's tie-break
by ascending lowest member name would put ["a"] first. -/
theorem get_community_info_tie_order_counterexample :
    (get_community_info (Graph.mk ["b", "a"] [] []) [("b", 0), ("a", 1)]
        (EntitiesData.mk [] [] [] [])).map (fun i => i.nodes) = [["b"], ["a"]]
    ∧ ¬ claimOrdered (get_community_info (Graph.mk ["b", "a"] [] []) [("b", 0), ("a", 1)]
        (EntitiesData.mk [] [] [] [])) := by
  constructor
  · rfl
  · unfold claimOrdered
    decide

/-! ## Temporal construction (`build_temporal_network`), claim C7 -/

/-- Day of week, 0 = Sunday (Sakamoto's method). -/
def weekday (d : Date) : Nat :=
  ((if d.month < 3 then d.year - 1 else d.year)
    + (if d.month < 3 then d.year - 1 else d.year) / 4
    - (if d.month < 3 then d.year - 1 else d.year) / 100
    + (if d.month < 3 then d.year - 1 else d.year) / 400
    + [0, 3, 2, 5, 0, 3, 5, 1, 4, 6, 2, 4].getD (d.month - 1) 0
    + d.day) % 7

/-- 1-based ordinal day of the year. -/
def ordinalDay (d : Date) : Nat :=
  [0, 31, 59, 90, 120, 151, 181, 212, 243, 273, 304, 334].getD (d.month - 1) 0
    + d.day + (if 2 < d.month ∧ isLeap d.year then 1 else 0)

def pad2 (n : Nat) : String := if n < 10 then "0" ++ toString n else toString n

/-- strftime `%W`: week of the year, Monday as first day, days before the
first Monday in week 00. -/
def weekW (d : Date) : Nat :=
  ((ordinalDay d - 1) + 7 - ((weekday d + 6) % 7)) / 7

/-- The period key `build_temporal_network` computes for each granularity
(`%Y` prints the year unpadded, `%m`/`%d`/`%W` zero-pad to two digits;
an unknown granularity falls back to month). -/
def periodKey (slices : String) (d : Date) : String :=
  if slices = "day" then toString d.year ++ "-" ++ pad2 d.month ++ "-" ++ pad2 d.day
  else if slices = "week" then toString d.year ++ "-W" ++ pad2 (weekW d)
  else if slices = "month" then toString d.year ++ "-" ++ pad2 d.month
  else if slices = "quarter" then toString d.year ++ "-Q" ++ toString ((d.month - 1) / 3 + 1)
  else if slices = "year" then toString d.year
  else toString d.year ++ "-" ++ pad2 d.month

/-- `defaultdict(list)` grouping of articles by period key; records with a
missing or unparseable date are skipped. -/
def addArt : List (String × List Article) → String → Article → List (String × List Article)
  | [], k, a => [(k, [a])]
  | (k', arts) :: rest, k, a =>
    if k' = k then (k', arts ++ [a]) :: rest else (k', arts) :: addArt rest k a

def temporalGroups (arts : List Article) (slices : String) : List (String × List Article) :=
  arts.foldl
    (fun acc a =>
      match a.date with
      | none => acc
      | some dt => if dt.valid then addArt acc (periodKey slices dt) a else acc) []

def insAscStr (x : String) : List String → List String
  | [] => [x]
  | y :: ys => if strLe x y then x :: y :: ys else y :: insAscStr x ys

/-- `sorted(temporal_groups.keys())` (Python ascending string sort). -/
def sortStr (l : List String) : List String := l.foldr insAscStr []

def lookupGroup (groups : List (String × List Article)) (k : String) : List Article :=
  match groups.find? (fun p => p.1 = k) with
  | some p => p.2
  | none => []

structure TemporalSnapshot where
  period : String
  graph : Graph
  article_count : Nat
deriving DecidableEq, Repr

/-- `GraphBuilder.build_temporal_network`: group by period key, then build a
co-occurrence network per period (the per-period `entities_data` carries
only `article_entities`, as in the source), emitting periods in ascending
key order. -/
def build_temporal_network (data : EntitiesData) (p : Params) : List TemporalSnapshot :=
  (sortStr ((temporalGroups data.article_entities p.time_slices).map (·.1))).map fun period =>
    TemporalSnapshot.mk period
      (build_cooccurrence_network
        (EntitiesData.mk
          (lookupGroup (temporalGroups data.article_entities p.time_slices) period) [] [] [])
        p)
      (lookupGroup (temporalGroups data.article_entities p.time_slices) period).length

/-- Modelled from the spec: the `YYYY-MM` month period key format of §3. -/
def specMonthKey (d : Date) : String := toString d.year ++ "-" ++ pad2 d.month

/-- Modelled from the spec: the `YYYY-Qn` quarter period key format of §3. -/
def specQuarterKey (d : Date) : String :=
  toString d.year ++ "-Q" ++ toString ((d.month - 1) / 3 + 1)

/-- ISO 8601 weekday, Monday = 1 .. Sunday = 7. -/
def isoWeekday (d : Date) : Nat := (weekday d + 6) % 7 + 1

/-- An ISO year has 53 weeks iff Jan 1 is a Thursday, or it is a leap year
whose Jan 1 is a Wednesday. -/
def isoWeeksInYear (y : Nat) : Nat :=
  if weekday (Date.mk y 1 1) = 4 ∨ (isLeap y ∧ weekday (Date.mk y 1 1) = 3) then 53 else 52

def isoWeekPair (d : Date) : Nat × Nat :=
  if (ordinalDay d + 10 - isoWeekday d) / 7 = 0 then
    (d.year - 1, isoWeeksInYear (d.year - 1))
  else if (ordinalDay d + 10 - isoWeekday d) / 7 = 53 ∧ isoWeeksInYear d.year = 52 then
    (d.year + 1, 1)
  else (d.year, (ordinalDay d + 10 - isoWeekday d) / 7)

/-- Modelled from the spec: the ISO week identifier (`GGGG-Www` with the ISO
week-numbering year) the claim says the week granularity uses. -/
def isoWeekKey (d : Date) : String :=
  toString (isoWeekPair d).1 ++ "-W" ++ pad2 (isoWeekPair d).2

theorem addArt_keys : ∀ (acc : List (String × List Article)) (k : String) (a : Article)
    (k' : String), k' ∈ (addArt acc k a).map (·.1) → k' ∈ acc.map (·.1) ∨ k' = k := by
  intro acc
  induction acc with
  | nil =>
    intro k a k' h
    simp [addArt] at h
    exact Or.inr h
  | cons p rest ih =>
    obtain ⟨kp, arts⟩ := p
    intro k a k' h
    by_cases hk : kp = k
    · rw [show addArt ((kp, arts) :: rest) k a
        = if kp = k then (kp, arts ++ [a]) :: rest
          else (kp, arts) :: addArt rest k a from rfl, if_pos hk] at h
      simp only [List.map_cons, List.mem_cons] at h
      rcases h with h | h
      · exact Or.inl (by rw [List.map_cons]; exact List.mem_cons.mpr (Or.inl h))
      · exact Or.inl (by rw [List.map_cons]; exact List.mem_cons.mpr (Or.inr h))
    · rw [show addArt ((kp, arts) :: rest) k a
        = if kp = k then (kp, arts ++ [a]) :: rest
          else (kp, arts) :: addArt rest k a from rfl, if_neg hk] at h
      simp only [List.map_cons, List.mem_cons] at h
      rcases h with h | h
      · exact Or.inl (by rw [List.map_cons]; exact List.mem_cons.mpr (Or.inl h))
      · rcases ih k a k' h with h1 | h1
        · exact Or.inl (by rw [List.map_cons]; exact List.mem_cons.mpr (Or.inr h1))
        · exact Or.inr h1

theorem temporalGroups_keys (arts : List Article) (slices : String) (k : String)
    (h : k ∈ (temporalGroups arts slices).map (·.1)) :
    ∃ a ∈ arts, ∃ dt, a.date = some dt ∧ dt.valid ∧ k = periodKey slices dt := by
  unfold temporalGroups at h
  have main : ∀ (l : List Article) (acc : List (String × List Article)),
      k ∈ (l.foldl (fun acc a =>
        match a.date with
        | none => acc
        | some dt => if dt.valid then addArt acc (periodKey slices dt) a else acc) acc).map (·.1) →
      k ∈ acc.map (·.1) ∨ ∃ a ∈ l, ∃ dt, a.date = some dt ∧ dt.valid ∧ k = periodKey slices dt := by
    intro l
    induction l with
    | nil => intro acc h; exact Or.inl h
    | cons a l ih =>
      intro acc h
      rw [List.foldl_cons] at h
      cases hd : a.date with
      | none =>
        rw [hd] at h
        rcases ih acc h with h1 | ⟨a', ha', hrest⟩
        · exact Or.inl h1
        · exact Or.inr ⟨a', List.mem_cons_of_mem _ ha', hrest⟩
      | some dt =>
        rw [hd] at h
        have h2 : k ∈ (l.foldl (fun acc a =>
            match a.date with
            | none => acc
            | some dt => if dt.valid then addArt acc (periodKey slices dt) a else acc)
            (if dt.valid then addArt acc (periodKey slices dt) a else acc)).map (·.1) := h
        clear h
        rename' h2 => h
        by_cases hv : dt.valid
        · rw [if_pos hv] at h
          rcases ih _ h with h1 | ⟨a', ha', hrest⟩
          · rcases addArt_keys acc (periodKey slices dt) a k h1 with h2 | h2
            · exact Or.inl h2
            · exact Or.inr ⟨a, List.mem_cons_self _ _, dt, hd, hv, h2⟩
          · exact Or.inr ⟨a', List.mem_cons_of_mem _ ha', hrest⟩
        · rw [if_neg hv] at h
          rcases ih acc h with h1 | ⟨a', ha', hrest⟩
          · exact Or.inl h1
          · exact Or.inr ⟨a', List.mem_cons_of_mem _ ha', hrest⟩
  rcases main arts [] h with h1 | h1
  · simp at h1
  · exact h1

theorem insAscStr_perm (x : String) (l : List String) : (insAscStr x l).Perm (x :: l) := by
  induction l with
  | nil => exact List.Perm.refl _
  | cons y ys ih =>
    unfold insAscStr
    split
    · exact List.Perm.refl _
    · exact (List.Perm.cons y ih).trans (List.Perm.swap x y ys)

theorem sortStr_mem {x : String} : ∀ {l : List String}, x ∈ sortStr l → x ∈ l := by
  intro l
  induction l with
  | nil => intro h; exact h
  | cons y ys ih =>
    intro h
    unfold sortStr at h
    rw [List.foldr_cons] at h
    rcases List.mem_cons.mp (((insAscStr_perm y _).mem_iff).mp h) with h1 | h1
    · exact h1 ▸ List.mem_cons_self _ _
    · exact List.mem_cons_of_mem _ (ih h1)

theorem periodKey_month_eq_spec (dt : Date) : periodKey "month" dt = specMonthKey dt := by
  unfold periodKey specMonthKey
  rw [if_neg (by decide), if_neg (by decide), if_pos rfl]

theorem periodKey_quarter_eq_spec (dt : Date) : periodKey "quarter" dt = specQuarterKey dt := by
  unfold periodKey specQuarterKey
  rw [if_neg (by decide), if_neg (by decide), if_neg (by decide), if_pos rfl]

/-- C7 (amended): every period key emitted by the temporal construction for
month granularity has the spec's `YYYY-MM` format of some article's
parseable date, and likewise `YYYY-Qn` for quarter granularity; the week
granularity (refuted separately) uses strftime `%W` — Monday-first
week-of-year with week 00 before the first Monday, under the calendar year
— rather than the ISO week identifier. -/
theorem build_temporal_period_format (data : EntitiesData) (p : Params) :
    (p.time_slices = "month" → ∀ t ∈ build_temporal_network data p,
      ∃ a ∈ data.article_entities, ∃ dt, a.date = some dt ∧ dt.valid ∧
        t.period = specMonthKey dt)
    ∧ (p.time_slices = "quarter" → ∀ t ∈ build_temporal_network data p,
      ∃ a ∈ data.article_entities, ∃ dt, a.date = some dt ∧ dt.valid ∧
        t.period = specQuarterKey dt) := by
  have core : ∀ t ∈ build_temporal_network data p,
      ∃ a ∈ data.article_entities, ∃ dt, a.date = some dt ∧ dt.valid ∧
        t.period = periodKey p.time_slices dt := by
    intro t ht
    unfold build_temporal_network at ht
    rcases List.mem_map.mp ht with ⟨period, hper, rfl⟩
    have hk := sortStr_mem hper
    rcases temporalGroups_keys data.article_entities p.time_slices period hk with
      ⟨a, ha, dt, hd, hv, hkey⟩
    exact ⟨a, ha, dt, hd, hv, hkey⟩
  constructor
  · intro hm t ht
    rcases core t ht with ⟨a, ha, dt, hd, hv, hkey⟩
    rw [hm] at hkey
    exact ⟨a, ha, dt, hd, hv, hkey.trans (periodKey_month_eq_spec dt)⟩
  · intro hm t ht
    rcases core t ht with ⟨a, ha, dt, hd, hv, hkey⟩
    rw [hm] at hkey
    exact ⟨a, ha, dt, hd, hv, hkey.trans (periodKey_quarter_eq_spec dt)⟩

/-- C7 (witness): the amended theorem applied to one article dated
2021-03-05 at month granularity. -/
theorem build_temporal_period_format_witness :
    ∃ a ∈ (EntitiesData.mk [Article.mk "a1" (some (Date.mk 2021 3 5)) [] ["A", "B"] [] [] []]
        [] [] []).article_entities,
      ∃ dt, a.date = some dt ∧ dt.valid ∧
        (TemporalSnapshot.mk "2021-03"
          (Graph.mk ["A", "B"] [("A", "B", 1)]
            [("A", NodeAttrs.mk "UNKNOWN" 0), ("B", NodeAttrs.mk "UNKNOWN" 0)]) 1).period
          = specMonthKey dt := by
  apply (build_temporal_period_format
    (EntitiesData.mk [Article.mk "a1" (some (Date.mk 2021 3 5)) [] ["A", "B"] [] [] []] [] [] [])
    (Params.mk 1 true "month")).1 rfl
  decide

/-- C7 (counterexample): at week granularity an article dated 2021-01-01
gets the period key "2021-W00" (strftime `%Y-W%W`), while the ISO week
identifier of that date is "2020-W53" — the week key is not the ISO week. -/
theorem temporal_week_key_not_iso_counterexample :
    (build_temporal_network
        (EntitiesData.mk [Article.mk "a1" (some (Date.mk 2021 1 1)) [] ["A", "B"] [] [] []]
          [] [] [])
        (Params.mk 1 true "week")).map (fun t => t.period) = ["2021-W00"]
    ∧ isoWeekKey (Date.mk 2021 1 1) = "2020-W53"
    ∧ ("2021-W00" : String) ≠ "2020-W53" := by
  exact ⟨rfl, rfl, by decide⟩
